import Mathlib

/-!
# Verification of `TPoolAllocator` (src/include/cppcore/Memory/TPoolAllocator.h)

Shallow embedding of the chunked pool allocator `CPPCore::TPoolAllocator<T>`.

The C++ object owns a singly linked chain of `Pool` nodes reached from
`m_first`, an allocation cursor inside the active node `m_current`, a free
list `m_freeList` of retired nodes, and a running `m_capacity` counter.
Nodes live on the C++ heap and are reached through raw pointers; we model
the node heap as a list indexed by address, where a `none` entry is a node
that has been `delete`d.  Every operation that dereferences a pointer is
modelled in `Option`: a `none` result means the C++ code dereferenced a
null or dangling pointer, freed a node twice, or looped forever — i.e.
undefined behaviour.  The element buffer `m_pool` (a `new T[n]` array) is
owned 1:1 by its node and is not given separate identity; a pointer
returned by `alloc` is modelled as the pair (node address, slot index).
-/

namespace TPool

/-- One `TPoolAllocator<T>::Pool` node: `m_poolsize`, `m_currentIdx`,
`m_next` (a nullable pointer, modelled as `Option` address).  The buffer
`m_pool` is implicit (owned by the node). -/
structure PoolNode where
  poolsize : Nat
  currentIdx : Nat
  next : Option Nat
  deriving Repr, DecidableEq

/-- A pointer returned by `alloc`: `&node.m_pool[idx]`, modelled as the
(node address, slot index) pair. -/
abbrev Ptr := Nat × Nat

/-- The allocator state: the node heap plus the four data members of
`TPoolAllocator`.  `heap.get? a = some (some n)` means address `a` holds a
live node `n`; `some none` means the node at `a` has been `delete`d. -/
structure AllocState where
  heap : List (Option PoolNode)
  first : Option Nat
  current : Option Nat
  freeList : Option Nat
  capacity : Nat
  deriving Repr, DecidableEq

/-- Dereference a node pointer: `some n` iff address `a` holds a live node. -/
def getNode (s : AllocState) (a : Nat) : Option PoolNode :=
  match s.heap.get? a with
  | some (some n) => some n
  | _ => none

/-- Overwrite the node stored at a live address (a field assignment
through a pointer in the C++ code). -/
def setNode (s : AllocState) (a : Nat) (n : PoolNode) : AllocState :=
  { s with heap := s.heap.set a (some n) }

/-- `delete` the node at address `a`. -/
def delNode (s : AllocState) (a : Nat) : AllocState :=
  { s with heap := s.heap.set a none }

/-- `new Pool(...)`: the fresh node gets the next unused address,
`s.heap.length`. -/
def appendNode (s : AllocState) (n : PoolNode) : AllocState :=
  { s with heap := s.heap ++ [some n] }

/-- `TPoolAllocator()` — the default constructor: all members null / 0. -/
def mkPool : AllocState :=
  { heap := [], first := none, current := none, freeList := none, capacity := 0 }

/-- `TPoolAllocator(numItems)`: `m_first = new Pool(numItems, nullptr);
m_capacity += numItems; m_current = m_first;`. -/
def mkPoolSized (numItems : Nat) : AllocState :=
  { heap := [some { poolsize := numItems, currentIdx := 0, next := none }],
    first := some 0, current := some 0, freeList := none, capacity := numItems }

/-- `getFreePool()`: returns the head of the free list (possibly null) and
advances `m_freeList`; dereferencing a dangling free-list head is UB. -/
def getFreePool (s : AllocState) : Option (Option Nat × AllocState) :=
  match s.freeList with
  | none => some (none, s)
  | some a =>
    match getNode s a with
    | none => none
    | some n => some (some a, { s with freeList := n.next })

/-- The body of `resize` after the early-return guard: either create the
very first node, or take a node from the free list (falling back to a
brand-new node) and link it behind `m_current`. -/
def resizeGrow (growSize : Nat) (s : AllocState) : Option AllocState :=
  match s.first with
  | none =>
    -- m_first = new Pool(growSize, nullptr); m_current = m_first;
    -- m_capacity += m_current->m_poolsize;
    let a := s.heap.length
    let s1 := appendNode s { poolsize := growSize, currentIdx := 0, next := none }
    some { s1 with first := some a, current := some a, capacity := s1.capacity + growSize }
  | some _ =>
    match getFreePool s with
    | none => none
    | some (poolOpt, s1) =>
      let (pAddr, s2) :=
        match poolOpt with
        | some p => (p, s1)
        | none =>
          -- pool = new Pool(growSize, nullptr); m_capacity += growSize;
          (s1.heap.length,
            { appendNode s1 { poolsize := growSize, currentIdx := 0, next := none } with
                capacity := s1.capacity + growSize })
      -- m_current->m_next = pool; m_current = m_current->m_next;
      match s2.current with
      | none => none
      | some c =>
        match getNode s2 c with
        | none => none
        | some cn => some { setNode s2 c { cn with next := some pAddr } with current := some pAddr }

/-- `resize(growSize)`: early-returns when the active node is at least as
large as the requested size, otherwise grows the chain. -/
def resize (growSize : Nat) (s : AllocState) : Option AllocState :=
  match s.current with
  | some c =>
    match getNode s c with
    | none => none
    | some cn =>
      if growSize < cn.poolsize then some s else resizeGrow growSize s
  | none => resizeGrow growSize s

/-- `alloc()`: null result on a pool with no active node; otherwise grow
if the active node is full, then hand out `&m_current->m_pool[idx]` and
bump the cursor. -/
def alloc (s : AllocState) : Option (Option Ptr × AllocState) :=
  match s.current with
  | none => some (none, s)
  | some c =>
    match getNode s c with
    | none => none
    | some cn =>
      match (if cn.currentIdx = cn.poolsize then resize cn.poolsize s else some s) with
      | none => none
      | some s1 =>
        match s1.current with
        | none => none
        | some c1 =>
          match getNode s1 c1 with
          | none => none
          | some cn1 =>
            some (some (c1, cn1.currentIdx),
              setNode s1 c1 { cn1 with currentIdx := cn1.currentIdx + 1 })

/-- Iterate `alloc` `k` times, collecting the returned pointers. -/
def allocN : Nat → AllocState → Option (List (Option Ptr) × AllocState)
  | 0, s => some ([], s)
  | k + 1, s =>
    match alloc s with
    | none => none
    | some (p, s1) =>
      match allocN k s1 with
      | none => none
      | some (ps, s2) => some (p :: ps, s2)

/-- The cursor-reset loop of `release()`: walk the chain from `p` setting
every `m_currentIdx` to 0.  The fuel bounds the walk; running out of fuel
models a walk that never reaches null (a cyclic chain). -/
def resetCursors (s : AllocState) : Nat → Option Nat → Option AllocState
  | _, none => some s
  | 0, some _ => none
  | fuel + 1, some a =>
    match getNode s a with
    | none => none
    | some n => resetCursors (setNode s a { n with currentIdx := 0 }) fuel n.next

/-- `release()`: reset every cursor, demote everything after the head into
the free list (`m_freeList = m_first->m_next`), and reactivate the head. -/
def release (s : AllocState) : Option AllocState :=
  match s.current with
  | none => some s
  | some _ =>
    match resetCursors s s.heap.length s.first with
    | none => none
    | some s1 =>
      match s1.first with
      | none => none
      | some f0 =>
        match getNode s1 f0 with
        | none => none
        | some fn => some { s1 with freeList := fn.next, current := some f0 }

/-- The teardown loop of `clear()`: `next = m_first; while (next) { cur =
next; next = cur->m_next; delete cur; }`.  Reading an already-freed node
is UB. -/
def deleteChain (s : AllocState) : Nat → Option Nat → Option AllocState
  | _, none => some s
  | 0, some _ => none
  | fuel + 1, some a =>
    match getNode s a with
    | none => none
    | some n => deleteChain (delNode s a) fuel n.next

/-- `clear()`: guarded on `m_current`; deletes the whole chain, then nulls
`m_current` and `m_freeList`.  Note that the source leaves `m_first`
dangling and `m_capacity` untouched. -/
def clear (s : AllocState) : Option AllocState :=
  match s.current with
  | none => some s
  | some _ =>
    match deleteChain s s.heap.length s.first with
    | none => none
    | some s1 => some { s1 with current := none, freeList := none }

/-- `reserve(size)`: `clear()` then build a single fresh node of the given
size and set `m_capacity = size`.  (The source also re-assigns
`m_current->m_pool = new T[size]` and `m_current->m_poolsize = size`; the
second buffer replaces the one the `Pool` constructor just made and the
poolsize store is idempotent, so neither changes the modelled state.) -/
def reserve (size : Nat) (s : AllocState) : Option AllocState :=
  match clear s with
  | none => none
  | some s1 =>
    let a := s1.heap.length
    let s2 := appendNode s1 { poolsize := size, currentIdx := 0, next := none }
    some { s2 with first := some a, current := some a, capacity := size }

/-- `capacity()`. -/
def capacity (s : AllocState) : Nat := s.capacity

/-- `freeMem()`: guarded on `m_current`; otherwise
`m_poolsize - m_currentIdx` (a `size_t` difference; in every state the
source reaches the cursor never exceeds the pool size, so `Nat`
subtraction agrees).  `none` models a dangling `m_current`. -/
def freeMem (s : AllocState) : Option Nat :=
  match s.current with
  | none => some 0
  | some c =>
    match getNode s c with
    | none => none
    | some n => some (n.poolsize - n.currentIdx)

/-- The string built by `dumpAllocations`. -/
def allocCountMsg (k : Nat) : String :=
  "Number allocations = " ++ toString k ++ "\n"

/-- `dumpAllocations(allocs)`: reads `m_current->m_currentIdx` with no
null check; `none` models the null / dangling dereference. -/
def dumpAllocations (s : AllocState) : Option String :=
  match s.current with
  | none => none
  | some c =>
    match getNode s c with
    | none => none
    | some n => some (allocCountMsg n.currentIdx)

/-- `reset()`: `m_current = m_first;`. -/
def reset (s : AllocState) : AllocState :=
  { s with current := s.first }

/-- The node chain starting at pointer `p`: the list of (address, node)
pairs visited by following `m_next` until null.  The fuel bounds the walk;
`none` means a dangling pointer was followed or the walk never reached
null within the fuel. -/
def chainFrom (s : AllocState) : Nat → Option Nat → Option (List (Nat × PoolNode))
  | _, none => some []
  | 0, some _ => none
  | fuel + 1, some a =>
    match getNode s a with
    | none => none
    | some n =>
      match chainFrom s fuel n.next with
      | none => none
      | some rest => some ((a, n) :: rest)

/-- The primary chain of the allocator: the walk from `m_first`, with fuel
equal to the number of addresses ever allocated (enough for any acyclic
chain of live nodes). -/
def chainOf (s : AllocState) : Option (List (Nat × PoolNode)) :=
  chainFrom s s.heap.length s.first

/-- The addresses along a chain. -/
def chainAddrs (l : List (Nat × PoolNode)) : List Nat :=
  l.map Prod.fst

/-- The node sizes along a chain. -/
def chainSizes (l : List (Nat × PoolNode)) : List Nat :=
  l.map (fun e => e.2.poolsize)

/-- Well-formed allocator state: the primary chain is an acyclic list of
live nodes with pairwise non-decreasing sizes; `m_current` is null only in
the pristine empty state, and otherwise sits on the chain; `m_freeList` is
null or points at a chain node strictly after `m_current` (the free list
shares its links with the chain, so it is the chain suffix from there). -/
def goodWF (s : AllocState) : Prop :=
  ∃ l, chainOf s = some l ∧ (chainAddrs l).Nodup ∧
    List.Pairwise (fun x y => x ≤ y) (chainSizes l) ∧
    ((s.current = none ∧ s.first = none ∧ s.freeList = none) ∨
      (∃ c cn l1 l2, s.current = some c ∧ l = l1 ++ (c, cn) :: l2 ∧
        (s.freeList = none ∨
          ∃ f fn l2a l2b, s.freeList = some f ∧ l2 = l2a ++ (f, fn) :: l2b)))

/-- A torn-down (or torn-down-then-reset) state: every root pointer is
null or dangling and the free list is null.  From such a state each
operation either no-ops, faults (UB), or rebuilds the pool via `reserve`/
`resize`. -/
def stuck (s : AllocState) : Prop :=
  (∀ a, s.first = some a → getNode s a = none) ∧
  (∀ a, s.current = some a → getNode s a = none) ∧
  s.freeList = none

/-- Invariant preserved by every public operation. -/
def WF (s : AllocState) : Prop := goodWF s ∨ stuck s

/-- One public mutating operation of the allocator. -/
inductive Op where
  | opAlloc
  | opRelease
  | opReset
  | opClear
  | opReserve (n : Nat)
  | opResize (n : Nat)
  deriving Repr, DecidableEq

/-- Run one public operation, keeping only the state. -/
def step : Op → AllocState → Option AllocState
  | .opAlloc, s => (alloc s).map Prod.snd
  | .opRelease, s => release s
  | .opReset, s => some (reset s)
  | .opClear, s => clear s
  | .opReserve n, s => reserve n s
  | .opResize n, s => resize n s

/-- A node with its cursor rewound to 0 (what `release` does to every
chain node). -/
def zeroCur (n : PoolNode) : PoolNode :=
  { n with currentIdx := 0 }

/-- Entry update used to describe a chain after a single node store. -/
def updEntry (a : Nat) (n : PoolNode) (e : Nat × PoolNode) : Nat × PoolNode :=
  if e.1 = a then (a, n) else e

/-- The pool of size `n` with its single node fully consumed: the state
after `n` successful `alloc` calls on `mkPoolSized n`. -/
def fullState (n : Nat) : AllocState :=
  { heap := [some { poolsize := n, currentIdx := n, next := none }],
    first := some 0, current := some 0, freeList := none, capacity := n }

/-- The two-node pool after growth: the state after `n + 1` `alloc`
calls on `mkPoolSized n` (for `n > 0`). -/
def grownState (n : Nat) : AllocState :=
  { heap := [some { poolsize := n, currentIdx := n, next := some 1 },
             some { poolsize := n, currentIdx := 1, next := none }],
    first := some 0, current := some 1, freeList := none, capacity := n + n }

/-- The two-node pool after `release`: both cursors rewound, the second
node on the free list, the head active again. -/
def relState (n : Nat) : AllocState :=
  { heap := [some { poolsize := n, currentIdx := 0, next := some 1 },
             some { poolsize := n, currentIdx := 0, next := none }],
    first := some 0, current := some 0, freeList := some 1, capacity := n + n }

/-- The released two-node pool with the head refilled. -/
def relFullState (n : Nat) : AllocState :=
  { heap := [some { poolsize := n, currentIdx := n, next := some 1 },
             some { poolsize := n, currentIdx := 0, next := none }],
    first := some 0, current := some 0, freeList := some 1, capacity := n + n }

/-- The state left behind by `clear` on a pool built with 4 items: the
node is freed, `current` and `freeList` are null, but `first` still
points at the freed node and `capacity` still reads 4. -/
def cleared4 : AllocState :=
  { heap := [none], first := some 0, current := none, freeList := none, capacity := 4 }

/-- A released two-node pool of node size 4 with a full head: the chain
is node 0 (full) then node 1 (empty, also the free-list head).  Used as a
concrete well-formed witness state. -/
def witReuseState : AllocState :=
  { heap := [some { poolsize := 4, currentIdx := 4, next := some 1 },
             some { poolsize := 4, currentIdx := 0, next := none }],
    first := some 0, current := some 0, freeList := some 1, capacity := 8 }

/-! ## Heap primitive lemmas -/

theorem getNode_lt {s : AllocState} {a : Nat} {n : PoolNode}
    (h : getNode s a = some n) : a < s.heap.length := by
  by_contra hlt
  have : s.heap[a]? = none := List.getElem?_eq_none (Nat.le_of_not_lt hlt)
  simp [getNode, this] at h

theorem heapLength_setNode (s : AllocState) (a : Nat) (n : PoolNode) :
    (setNode s a n).heap.length = s.heap.length := by
  simp [setNode]

theorem heapLength_delNode (s : AllocState) (a : Nat) :
    (delNode s a).heap.length = s.heap.length := by
  simp [delNode]

theorem heapLength_appendNode (s : AllocState) (n : PoolNode) :
    (appendNode s n).heap.length = s.heap.length + 1 := by
  simp [appendNode]

theorem getNode_setNode_self {s : AllocState} {a : Nat} {m : PoolNode}
    (h : getNode s a = some m) (n : PoolNode) :
    getNode (setNode s a n) a = some n := by
  have hlt : a < s.heap.length := getNode_lt h
  simp [getNode, setNode, List.getElem?_set_eq_of_lt _ hlt]

theorem getNode_setNode_ne (s : AllocState) {a b : Nat} (n : PoolNode) (h : b ≠ a) :
    getNode (setNode s a n) b = getNode s b := by
  simp [getNode, setNode, List.getElem?_set_ne (Ne.symm h)]

theorem getNode_delNode_self (s : AllocState) (a : Nat) :
    getNode (delNode s a) a = none := by
  rcases Nat.lt_or_ge a s.heap.length with hlt | hge
  · simp [getNode, delNode, List.getElem?_set_eq_of_lt _ hlt]
  · have : (s.heap.set a none)[a]? = none := by
      apply List.getElem?_eq_none
      simpa using hge
    simp [getNode, delNode, this]

theorem getNode_delNode_ne (s : AllocState) {a b : Nat} (h : b ≠ a) :
    getNode (delNode s a) b = getNode s b := by
  simp [getNode, delNode, List.getElem?_set_ne (Ne.symm h)]

theorem getNode_appendNode {s : AllocState} {b : Nat} {n : PoolNode}
    (h : getNode s b = some n) (x : PoolNode) :
    getNode (appendNode s x) b = some n := by
  have hlt : b < s.heap.length := getNode_lt h
  simpa [getNode, appendNode, List.getElem?_append_left hlt] using h

theorem getNode_appendNode_self (s : AllocState) (x : PoolNode) :
    getNode (appendNode s x) s.heap.length = some x := by
  simp [getNode, appendNode, List.getElem?_concat_length]

/-! ## Chain walk lemmas -/

theorem chainAddrs_nil : chainAddrs [] = [] := rfl

theorem chainAddrs_cons (e : Nat × PoolNode) (l : List (Nat × PoolNode)) :
    chainAddrs (e :: l) = e.1 :: chainAddrs l := rfl

theorem chainAddrs_append (l1 l2 : List (Nat × PoolNode)) :
    chainAddrs (l1 ++ l2) = chainAddrs l1 ++ chainAddrs l2 := by
  simp [chainAddrs]

theorem chainSizes_nil : chainSizes [] = [] := rfl

theorem chainSizes_cons (e : Nat × PoolNode) (l : List (Nat × PoolNode)) :
    chainSizes (e :: l) = e.2.poolsize :: chainSizes l := rfl

theorem chainSizes_append (l1 l2 : List (Nat × PoolNode)) :
    chainSizes (l1 ++ l2) = chainSizes l1 ++ chainSizes l2 := by
  simp [chainSizes]

theorem chainFrom_none (s : AllocState) (fuel : Nat) :
    chainFrom s fuel none = some [] := by
  cases fuel <;> rfl

theorem chainFrom_nil_ptr {s : AllocState} {fuel : Nat} {p : Option Nat}
    (h : chainFrom s fuel p = some []) : p = none := by
  cases p with
  | none => rfl
  | some a =>
    cases fuel with
    | zero => simp [chainFrom] at h
    | succ fuel =>
      simp only [chainFrom] at h
      split at h
      · exact absurd h (by simp)
      split at h
      · exact absurd h (by simp)
      · simp at h

theorem chainFrom_cons {s : AllocState} {fuel : Nat} {p : Option Nat}
    {a : Nat} {n : PoolNode} {rest : List (Nat × PoolNode)}
    (h : chainFrom s fuel p = some ((a, n) :: rest)) :
    p = some a ∧ getNode s a = some n ∧
      ∃ fuel2, fuel = fuel2 + 1 ∧ chainFrom s fuel2 n.next = some rest := by
  cases p with
  | none => rw [chainFrom_none] at h; simp at h
  | some b =>
    cases fuel with
    | zero => simp [chainFrom] at h
    | succ fuel =>
      simp only [chainFrom] at h
      split at h
      · exact absurd h (by simp)
      next m hg =>
        split at h
        · exact absurd h (by simp)
        next r hr =>
          simp only [Option.some.injEq, List.cons.injEq, Prod.mk.injEq] at h
          obtain ⟨⟨hb, hm⟩, hrest⟩ := h
          subst hb; subst hm; subst hrest
          exact ⟨rfl, hg, fuel, rfl, hr⟩

theorem chainFrom_mono {s : AllocState} {fuel fuel' : Nat} {p : Option Nat}
    {l : List (Nat × PoolNode)} (hle : fuel ≤ fuel')
    (h : chainFrom s fuel p = some l) : chainFrom s fuel' p = some l := by
  induction l generalizing p fuel fuel' with
  | nil =>
    have := chainFrom_nil_ptr h
    subst this
    exact chainFrom_none s fuel'
  | cons e rest ih =>
    obtain ⟨a, n⟩ := e
    obtain ⟨hp, hg, fuel2, hf, hr⟩ := chainFrom_cons h
    subst hp; subst hf
    cases fuel' with
    | zero => omega
    | succ fuel3 =>
      have hr3 : chainFrom s fuel3 n.next = some rest := ih (by omega) hr
      simp [chainFrom, hg, hr3]

theorem chainFrom_live {s : AllocState} {fuel : Nat} {p : Option Nat}
    {l : List (Nat × PoolNode)} (h : chainFrom s fuel p = some l) :
    ∀ e ∈ l, getNode s e.1 = some e.2 := by
  induction l generalizing p fuel with
  | nil => intro e he; simp at he
  | cons e rest ih =>
    obtain ⟨a, n⟩ := e
    obtain ⟨hp, hg, fuel2, hf, hr⟩ := chainFrom_cons h
    intro e' he'
    rcases List.mem_cons.1 he' with he' | he'
    · subst he'; exact hg
    · exact ih hr e' he'

theorem chainAddrs_lt {s : AllocState} {fuel : Nat} {p : Option Nat}
    {l : List (Nat × PoolNode)} (h : chainFrom s fuel p = some l) :
    ∀ a ∈ chainAddrs l, a < s.heap.length := by
  intro a ha
  obtain ⟨e, he, hfst⟩ := List.mem_map.1 ha
  subst hfst
  exact getNode_lt (chainFrom_live h e he)

theorem length_le_of_nodup_lt {l : List Nat} {N : Nat}
    (hn : l.Nodup) (hlt : ∀ a ∈ l, a < N) : l.length ≤ N := by
  classical
  have hsub : l.toFinset ⊆ Finset.range N := by
    intro a ha
    exact Finset.mem_range.2 (hlt a (List.mem_toFinset.1 ha))
  have := Finset.card_le_card hsub
  rwa [List.toFinset_card_of_nodup hn, Finset.card_range] at this

/-- Any successful walk also succeeds with fuel `s.heap.length`, provided
its addresses are distinct (they are all live, hence below the heap
length). -/
theorem chainFrom_heapLength {s : AllocState} {fuel : Nat} {p : Option Nat}
    {l : List (Nat × PoolNode)} (h : chainFrom s fuel p = some l)
    (hn : (chainAddrs l).Nodup) : chainFrom s s.heap.length p = some l := by
  -- first: the walk succeeds with fuel `l.length`
  have hmin : ∀ fuel p l, chainFrom s fuel p = some l →
      chainFrom s l.length p = some l := by
    intro fuel p l h
    induction l generalizing p fuel with
    | nil => rw [chainFrom_nil_ptr h]; exact chainFrom_none s 0
    | cons e rest ih =>
      obtain ⟨a, n⟩ := e
      obtain ⟨hp, hg, fuel2, hf, hr⟩ := chainFrom_cons h
      subst hp
      simp [chainFrom, hg, ih fuel2 n.next hr]
  have hlen : l.length ≤ s.heap.length := by
    have : (chainAddrs l).length ≤ s.heap.length :=
      length_le_of_nodup_lt hn (chainAddrs_lt h)
    simpa [chainAddrs] using this
  exact chainFrom_mono hlen (hmin fuel p l h)

/-- The chain starting at any entry of a chain is the suffix from there. -/
theorem chainFrom_suffix {s : AllocState} {fuel : Nat} {p : Option Nat}
    {l1 l2 : List (Nat × PoolNode)} {e : Nat × PoolNode}
    (h : chainFrom s fuel p = some (l1 ++ e :: l2)) :
    ∃ fuel2, chainFrom s fuel2 (some e.1) = some (e :: l2) := by
  induction l1 generalizing p fuel with
  | nil =>
    obtain ⟨a, n⟩ := e
    obtain ⟨hp, hg, fuel2, hf, hr⟩ := chainFrom_cons h
    exact ⟨fuel2 + 1, by simp [chainFrom, hg, hr]⟩
  | cons e0 l1 ih =>
    obtain ⟨a, n⟩ := e0
    obtain ⟨hp, hg, fuel2, hf, hr⟩ := chainFrom_cons h
    exact ih hr

/-- The head pointer of a nonempty chain. -/
theorem chainFrom_head_ptr {s : AllocState} {fuel : Nat} {p : Option Nat}
    {l : List (Nat × PoolNode)} (h : chainFrom s fuel p = some l) :
    p = match l with | [] => none | e :: _ => some e.1 := by
  cases l with
  | nil => exact chainFrom_nil_ptr h
  | cons e rest => exact (chainFrom_cons (a := e.1) (n := e.2) h).1

/-! ### Transferring a chain across heap updates -/

theorem chainFrom_setNode_notmem {s : AllocState} {c : Nat} (x : PoolNode)
    {fuel : Nat} {p : Option Nat} {l : List (Nat × PoolNode)}
    (h : chainFrom s fuel p = some l) (hc : c ∉ chainAddrs l) :
    chainFrom (setNode s c x) fuel p = some l := by
  induction l generalizing p fuel with
  | nil => rw [chainFrom_nil_ptr h]; exact chainFrom_none _ fuel
  | cons e rest ih =>
    obtain ⟨a, n⟩ := e
    obtain ⟨hp, hg, fuel2, hf, hr⟩ := chainFrom_cons h
    subst hp; subst hf
    have hca : a ≠ c := by
      intro hac; exact hc (by simp [chainAddrs, hac])
    have hrest : c ∉ chainAddrs rest := by
      intro hmem; exact hc (by simp [chainAddrs] at hmem ⊢; exact Or.inr hmem)
    have hg' : getNode (setNode s c x) a = some n := by
      rw [getNode_setNode_ne s x hca]; exact hg
    simp [chainFrom, hg', ih hr hrest]

theorem chainFrom_delNode_notmem {s : AllocState} {c : Nat}
    {fuel : Nat} {p : Option Nat} {l : List (Nat × PoolNode)}
    (h : chainFrom s fuel p = some l) (hc : c ∉ chainAddrs l) :
    chainFrom (delNode s c) fuel p = some l := by
  induction l generalizing p fuel with
  | nil => rw [chainFrom_nil_ptr h]; exact chainFrom_none _ fuel
  | cons e rest ih =>
    obtain ⟨a, n⟩ := e
    obtain ⟨hp, hg, fuel2, hf, hr⟩ := chainFrom_cons h
    subst hp; subst hf
    have hca : a ≠ c := by
      intro hac; exact hc (by simp [chainAddrs, hac])
    have hrest : c ∉ chainAddrs rest := by
      intro hmem; exact hc (by simp [chainAddrs] at hmem ⊢; exact Or.inr hmem)
    have hg' : getNode (delNode s c) a = some n := by
      rw [getNode_delNode_ne s hca]; exact hg
    simp [chainFrom, hg', ih hr hrest]

theorem chainFrom_appendNode {s : AllocState} (x : PoolNode)
    {fuel : Nat} {p : Option Nat} {l : List (Nat × PoolNode)}
    (h : chainFrom s fuel p = some l) :
    chainFrom (appendNode s x) fuel p = some l := by
  induction l generalizing p fuel with
  | nil => rw [chainFrom_nil_ptr h]; exact chainFrom_none _ fuel
  | cons e rest ih =>
    obtain ⟨a, n⟩ := e
    obtain ⟨hp, hg, fuel2, hf, hr⟩ := chainFrom_cons h
    subst hp; subst hf
    simp [chainFrom, getNode_appendNode hg x, ih hr]

/-- Storing a node with an unchanged `next` field rewrites the chain
entrywise but keeps its shape. -/
theorem chainFrom_setNode_samenext {s : AllocState} {a : Nat} {m : PoolNode}
    (hm : getNode s a = some m) (n2 : PoolNode) (hnext : n2.next = m.next)
    {fuel : Nat} {p : Option Nat} {l : List (Nat × PoolNode)}
    (h : chainFrom s fuel p = some l) :
    chainFrom (setNode s a n2) fuel p = some (l.map (updEntry a n2)) := by
  induction l generalizing p fuel with
  | nil => rw [chainFrom_nil_ptr h]; simpa using chainFrom_none _ fuel
  | cons e rest ih =>
    obtain ⟨b, nb⟩ := e
    obtain ⟨hp, hg, fuel2, hf, hr⟩ := chainFrom_cons h
    subst hp; subst hf
    by_cases hba : b = a
    · subst hba
      have hnb : nb = m := by rw [hg] at hm; exact Option.some.inj hm
      subst hnb
      have hg' : getNode (setNode s b n2) b = some n2 := getNode_setNode_self hg n2
      have hr' : chainFrom (setNode s b n2) fuel2 n2.next = some (rest.map (updEntry b n2)) := by
        rw [hnext]; exact ih hr
      simp [chainFrom, hg', hr', updEntry]
    · have hg' : getNode (setNode s a n2) b = some nb := by
        rw [getNode_setNode_ne s n2 hba]; exact hg
      simp [chainFrom, hg', ih hr, updEntry, hba]

/-! ### Specifications of the two destructive walks -/

/-- `resetCursors` succeeds on a duplicate-free chain, zeroes every chain
node's cursor, leaves everything else in place, and keeps the chain shape. -/
theorem resetCursors_spec {s : AllocState} {fuel : Nat} {p : Option Nat}
    {l : List (Nat × PoolNode)} (h : chainFrom s fuel p = some l)
    (hn : (chainAddrs l).Nodup) :
    ∃ s', resetCursors s fuel p = some s' ∧
      s'.heap.length = s.heap.length ∧ s'.first = s.first ∧
      s'.current = s.current ∧ s'.freeList = s.freeList ∧
      s'.capacity = s.capacity ∧
      (∀ e ∈ l, getNode s' e.1 = some (zeroCur e.2)) ∧
      (∀ b, b ∉ chainAddrs l → getNode s' b = getNode s b) ∧
      chainFrom s' fuel p = some (l.map (fun e => (e.1, zeroCur e.2))) := by
  induction l generalizing p fuel s with
  | nil =>
    rw [chainFrom_nil_ptr h]
    refine ⟨s, ?_, rfl, rfl, rfl, rfl, rfl, by simp, fun b _ => rfl, by simp [chainFrom_none]⟩
    cases fuel <;> rfl
  | cons e rest ih =>
    obtain ⟨a, n⟩ := e
    obtain ⟨hp, hg, fuel2, hf, hr⟩ := chainFrom_cons h
    subst hp; subst hf
    rw [chainAddrs_cons, List.nodup_cons] at hn
    have hna : a ∉ chainAddrs rest := hn.1
    have hnr : (chainAddrs rest).Nodup := hn.2
    -- the recursive call runs on the state with node `a` zeroed
    have hr1 : chainFrom (setNode s a (zeroCur n)) fuel2 n.next = some rest :=
      chainFrom_setNode_notmem (zeroCur n) hr hna
    obtain ⟨s', hs', hlen, hfe, hcu, hfl, hcap, hzero, hoff, hchain⟩ := ih hr1 hnr
    have hga : getNode (setNode s a (zeroCur n)) a = some (zeroCur n) :=
      getNode_setNode_self hg (zeroCur n)
    refine ⟨s', ?_, ?_, ?_, ?_, ?_, ?_, ?_, ?_, ?_⟩
    · simp only [resetCursors, hg]
      exact hs'
    · rw [hlen, heapLength_setNode]
    · rw [hfe]; rfl
    · rw [hcu]; rfl
    · rw [hfl]; rfl
    · rw [hcap]; rfl
    · intro e he
      rcases List.mem_cons.1 he with he | he
      · subst he
        rw [hoff _ hna]; exact hga
      · exact hzero e he
    · intro b hb
      have hbne : b ≠ a := by
        intro hba; exact hb (by simp [chainAddrs, hba])
      have hbrest : b ∉ chainAddrs rest := by
        intro hmem; exact hb (by simp [chainAddrs] at hmem ⊢; exact Or.inr hmem)
      rw [hoff b hbrest, getNode_setNode_ne s (zeroCur n) hbne]
    · have hga' : getNode s' a = some (zeroCur n) := by
        rw [hoff _ hna]; exact hga
      have hnext : (zeroCur n).next = n.next := rfl
      simp [chainFrom, hga', hnext, hchain]

/-- `deleteChain` succeeds on a duplicate-free chain of live nodes, frees
exactly the chain's addresses, and leaves everything else in place. -/
theorem deleteChain_spec {s : AllocState} {fuel : Nat} {p : Option Nat}
    {l : List (Nat × PoolNode)} (h : chainFrom s fuel p = some l)
    (hn : (chainAddrs l).Nodup) :
    ∃ s', deleteChain s fuel p = some s' ∧
      s'.heap.length = s.heap.length ∧ s'.first = s.first ∧
      s'.current = s.current ∧ s'.freeList = s.freeList ∧
      s'.capacity = s.capacity ∧
      (∀ a ∈ chainAddrs l, getNode s' a = none) ∧
      (∀ b, b ∉ chainAddrs l → getNode s' b = getNode s b) := by
  induction l generalizing p fuel s with
  | nil =>
    rw [chainFrom_nil_ptr h]
    refine ⟨s, ?_, rfl, rfl, rfl, rfl, rfl, by simp [chainAddrs], fun b _ => rfl⟩
    cases fuel <;> rfl
  | cons e rest ih =>
    obtain ⟨a, n⟩ := e
    obtain ⟨hp, hg, fuel2, hf, hr⟩ := chainFrom_cons h
    subst hp; subst hf
    rw [chainAddrs_cons, List.nodup_cons] at hn
    have hna : a ∉ chainAddrs rest := hn.1
    have hnr : (chainAddrs rest).Nodup := hn.2
    have hr1 : chainFrom (delNode s a) fuel2 n.next = some rest :=
      chainFrom_delNode_notmem hr hna
    obtain ⟨s', hs', hlen, hfe, hcu, hfl, hcap, hdead, hoff⟩ := ih hr1 hnr
    refine ⟨s', ?_, ?_, ?_, ?_, ?_, ?_, ?_, ?_⟩
    · simp only [deleteChain, hg]
      exact hs'
    · rw [hlen, heapLength_delNode]
    · rw [hfe]; rfl
    · rw [hcu]; rfl
    · rw [hfl]; rfl
    · rw [hcap]; rfl
    · intro b hb
      rw [chainAddrs_cons] at hb
      rcases List.mem_cons.1 hb with hb | hb
      · subst hb
        rw [hoff _ hna]
        exact getNode_delNode_self s b
      · exact hdead b hb
    · intro b hb
      have hbne : b ≠ a := by
        intro hba; exact hb (by simp [chainAddrs, hba])
      have hbrest : b ∉ chainAddrs rest := by
        intro hmem; exact hb (by simp [chainAddrs] at hmem ⊢; exact Or.inr hmem)
      rw [hoff b hbrest, getNode_delNode_ne s hbne]

/-- Rerouting the successor of a chain node: after `c->m_next = q`, the
chain from the old head is the old prefix up to `c`, then `c` with its new
successor pointer, then whatever chain starts at `q` in the updated heap. -/
theorem chainFrom_relink {s : AllocState} {c : Nat} {cn cn' : PoolNode}
    {q : Option Nat} (hnext : cn'.next = q) {m : List (Nat × PoolNode)}
    {fuel2 : Nat} (hq : chainFrom (setNode s c cn') fuel2 q = some m) :
    ∀ {l1 : List (Nat × PoolNode)} {fuel : Nat} {p : Option Nat}
      {lrest : List (Nat × PoolNode)},
      chainFrom s fuel p = some (l1 ++ (c, cn) :: lrest) →
      c ∉ chainAddrs l1 →
      ∃ fuel3, chainFrom (setNode s c cn') fuel3 p = some (l1 ++ (c, cn') :: m) := by
  intro l1
  induction l1 with
  | nil =>
    intro fuel p lrest h hc
    obtain ⟨hp, hg, fuel4, hf, hr⟩ := chainFrom_cons h
    subst hp
    have hgc : getNode (setNode s c cn') c = some cn' := getNode_setNode_self hg cn'
    refine ⟨fuel2 + 1, ?_⟩
    simp [chainFrom, hgc, hnext, hq]
  | cons e l1 ih =>
    intro fuel p lrest h hc
    obtain ⟨a, n⟩ := e
    obtain ⟨hp, hg, fuel4, hf, hr⟩ := chainFrom_cons (by simpa using h)
    subst hp
    have hac : a ≠ c := by
      intro hca; exact hc (by simp [chainAddrs, hca])
    have hc1 : c ∉ chainAddrs l1 := by
      intro hmem; exact hc (by simp [chainAddrs] at hmem ⊢; exact Or.inr hmem)
    obtain ⟨fuel3, h3⟩ := ih hr hc1
    have hga : getNode (setNode s c cn') a = some n := by
      rw [getNode_setNode_ne s cn' hac]; exact hg
    exact ⟨fuel3 + 1, by simp [chainFrom, hga, h3]⟩

/-! ### State congruence along the heap -/

theorem getNode_heapEq {s1 s2 : AllocState} (h : s1.heap = s2.heap) (a : Nat) :
    getNode s1 a = getNode s2 a := by
  simp [getNode, h]

theorem chainFrom_heapEq (s1 s2 : AllocState) (h : s1.heap = s2.heap) :
    ∀ fuel p, chainFrom s1 fuel p = chainFrom s2 fuel p := by
  intro fuel
  induction fuel with
  | zero => intro p; cases p <;> rfl
  | succ fuel ih =>
    intro p
    cases p with
    | none => rfl
    | some a =>
      simp only [chainFrom, getNode_heapEq h a]
      cases getNode s2 a with
      | none => rfl
      | some n => simp [ih]

/-! ### Unpacking `goodWF` -/

theorem goodWF_none {s : AllocState} (hwf : goodWF s) (hc : s.current = none) :
    s.first = none ∧ s.freeList = none ∧ chainOf s = some [] := by
  obtain ⟨l, hchain, _, _, hcases⟩ := hwf
  rcases hcases with ⟨_, hf, hfl⟩ | ⟨c, cn, l1, l2, hcur, _, _⟩
  · refine ⟨hf, hfl, ?_⟩
    simp [chainOf, hf, chainFrom_none]
  · rw [hc] at hcur; exact absurd hcur (by simp)

theorem goodWF_some {s : AllocState} {c : Nat} (hwf : goodWF s) (hc : s.current = some c) :
    ∃ l l1 cn l2, chainOf s = some l ∧ (chainAddrs l).Nodup ∧
      List.Pairwise (fun x y => x ≤ y) (chainSizes l) ∧ l = l1 ++ (c, cn) :: l2 ∧
      (s.freeList = none ∨
        ∃ f fn l2a l2b, s.freeList = some f ∧ l2 = l2a ++ (f, fn) :: l2b) := by
  obtain ⟨l, hchain, hnd, hpw, hcases⟩ := hwf
  rcases hcases with ⟨hcn, _, _⟩ | ⟨c', cn, l1, l2, hcur, hdec, hfl⟩
  · rw [hc] at hcn; exact absurd hcn (by simp)
  · rw [hc] at hcur
    obtain hc' : c' = c := by injection hcur with h; exact h.symm
    subst hc'
    exact ⟨l, l1, cn, l2, hchain, hnd, hpw, hdec, hfl⟩

theorem goodWF_current_live {s : AllocState} {c : Nat} (hwf : goodWF s)
    (hc : s.current = some c) : ∃ cn, getNode s c = some cn := by
  obtain ⟨l, l1, cn, l2, hchain, _, _, hdec, _⟩ := goodWF_some hwf hc
  refine ⟨cn, ?_⟩
  exact chainFrom_live hchain (c, cn) (by rw [hdec]; simp)

/-- From pairwise non-decreasing sizes, a node left of another is no
larger. -/
theorem sizes_le_of_split {l1 l2a l2b : List (Nat × PoolNode)} {c f : Nat}
    {cn fn : PoolNode}
    (hp : List.Pairwise (fun x y => x ≤ y)
      (chainSizes (l1 ++ (c, cn) :: (l2a ++ (f, fn) :: l2b)))) :
    cn.poolsize ≤ fn.poolsize := by
  rw [chainSizes_append, chainSizes_cons, chainSizes_append, chainSizes_cons] at hp
  have h2 := (List.pairwise_append.1 hp).2.1
  have hhead := (List.pairwise_cons.1 h2).1
  exact hhead fn.poolsize (by simp)

/-! ### The three growth paths of `resize` -/

/-- Growth of a chunkless pool (`m_first == nullptr`): one fresh node
becomes the whole chain. -/
theorem resizeGrow_empty {s : AllocState} (g : Nat)
    (hf : s.first = none) (hfl : s.freeList = none) :
    ∃ s', resizeGrow g s = some s' ∧ goodWF s' ∧
      s'.heap.length = s.heap.length + 1 ∧ s'.capacity = s.capacity + g ∧
      s'.first = some s.heap.length ∧ s'.current = some s.heap.length ∧
      s'.freeList = none ∧
      getNode s' s.heap.length = some { poolsize := g, currentIdx := 0, next := none } := by
  refine ⟨{ heap := s.heap ++ [some { poolsize := g, currentIdx := 0, next := none }],
            first := some s.heap.length, current := some s.heap.length,
            freeList := s.freeList, capacity := s.capacity + g }, ?_, ?_, by simp, rfl, rfl, rfl,
          hfl, ?_⟩
  · simp [resizeGrow, hf, appendNode]
  · refine ⟨[(s.heap.length, { poolsize := g, currentIdx := 0, next := none })], ?_,
      by simp [chainAddrs], by simp [chainSizes],
      Or.inr ⟨s.heap.length, { poolsize := g, currentIdx := 0, next := none }, [], [],
        rfl, rfl, Or.inl hfl⟩⟩
    simp [chainOf, chainFrom, getNode, List.getElem?_concat_length, chainFrom_none]
  · simp [getNode, List.getElem?_concat_length]

/-- Growth when the free list is non-empty: the free-list head is
relinked behind the active node — no new node, no capacity change.  The
reused node is at least as large as the active one because it sits
further right on the size-sorted chain. -/
theorem resizeGrow_reuse {s : AllocState} (g : Nat) {c f : Nat} {cn fn : PoolNode}
    {l1 l2a l2b : List (Nat × PoolNode)}
    (hchain : chainOf s = some (l1 ++ (c, cn) :: (l2a ++ (f, fn) :: l2b)))
    (hnd : (chainAddrs (l1 ++ (c, cn) :: (l2a ++ (f, fn) :: l2b))).Nodup)
    (hpw : List.Pairwise (fun x y => x ≤ y)
      (chainSizes (l1 ++ (c, cn) :: (l2a ++ (f, fn) :: l2b))))
    (hcur : s.current = some c) (hfl : s.freeList = some f) :
    ∃ s', resizeGrow g s = some s' ∧ goodWF s' ∧
      s'.heap.length = s.heap.length ∧ s'.capacity = s.capacity ∧
      s'.first = s.first ∧ s'.current = some f ∧
      getNode s' f = some fn ∧ cn.poolsize ≤ fn.poolsize := by
  have hclive : getNode s c = some cn := chainFrom_live hchain (c, cn) (by simp)
  have hflive : getNode s f = some fn := chainFrom_live hchain (f, fn) (by simp)
  obtain ⟨h0, hfirst⟩ : ∃ h0, s.first = some h0 := by
    cases l1 with
    | nil => exact ⟨c, by simpa using chainFrom_head_ptr hchain⟩
    | cons e l1 => exact ⟨e.1, by simpa using chainFrom_head_ptr hchain⟩
  have hnd' := hnd
  rw [chainAddrs_append, chainAddrs_cons, List.nodup_append] at hnd'
  have hcnotin2 : c ∉ chainAddrs (l2a ++ (f, fn) :: l2b) := (List.nodup_cons.1 hnd'.2.1).1
  have hcnotin1 : c ∉ chainAddrs l1 := by
    intro hmem
    exact hnd'.2.2 hmem (List.mem_cons_self c _)
  have hcnef : c ≠ f := by
    intro hcf
    apply hcnotin2
    rw [hcf, chainAddrs_append, chainAddrs_cons]
    simp
  have hcsub : c ∉ chainAddrs ((f, fn) :: l2b) := by
    intro hmem
    apply hcnotin2
    rw [chainAddrs_append]
    exact List.mem_append.2 (Or.inr hmem)
  have hgfp : getFreePool s = some (some f, { s with freeList := fn.next }) := by
    simp [getFreePool, hfl, hflive]
  have hclive' : getNode { s with freeList := fn.next } c = some cn := hclive
  refine ⟨{ setNode { s with freeList := fn.next } c { cn with next := some f } with
            current := some f }, ?_, ?_, by simp [setNode], rfl, rfl, rfl, ?_, ?_⟩
  · -- evaluation of resizeGrow
    have hclive2 : getNode { heap := s.heap, first := some h0, current := some c,
                             freeList := fn.next, capacity := s.capacity } c = some cn := hclive
    simp [resizeGrow, hfirst, hgfp, hcur, hclive', hclive2]
  · -- goodWF of the relinked state
    have hsfl : chainFrom { s with freeList := fn.next } s.heap.length s.first
        = some (l1 ++ (c, cn) :: (l2a ++ (f, fn) :: l2b)) := by
      rw [chainFrom_heapEq { s with freeList := fn.next } s rfl]
      exact hchain
    have hassoc : l1 ++ (c, cn) :: (l2a ++ (f, fn) :: l2b)
        = (l1 ++ (c, cn) :: l2a) ++ (f, fn) :: l2b := by simp
    obtain ⟨fu2, hsuf⟩ :=
      chainFrom_suffix
        (show chainFrom s s.heap.length s.first = some ((l1 ++ (c, cn) :: l2a) ++ (f, fn) :: l2b)
          by rw [show ((l1 ++ (c, cn) :: l2a) ++ (f, fn) :: l2b : List (Nat × PoolNode))
                  = l1 ++ (c, cn) :: (l2a ++ (f, fn) :: l2b) from hassoc.symm]; exact hchain)
    have hsuf2 : chainFrom (setNode { s with freeList := fn.next } c { cn with next := some f })
        fu2 (some f) = some ((f, fn) :: l2b) := by
      apply chainFrom_setNode_notmem _ _ hcsub
      rw [chainFrom_heapEq { s with freeList := fn.next } s rfl]
      exact hsuf
    obtain ⟨fu3, hnew⟩ := chainFrom_relink rfl hsuf2 hsfl hcnotin1
    have hsubl : (l1 ++ (c, cn) :: (f, fn) :: l2b).Sublist
        (l1 ++ (c, cn) :: (l2a ++ (f, fn) :: l2b)) :=
      List.Sublist.append_left
        ((List.sublist_append_right l2a ((f, fn) :: l2b)).cons₂ (c, cn)) l1
    have hndnew : (chainAddrs (l1 ++ (c, { cn with next := some f }) :: (f, fn) :: l2b)).Nodup := by
      have heq : chainAddrs (l1 ++ (c, { cn with next := some f }) :: (f, fn) :: l2b)
          = chainAddrs (l1 ++ (c, cn) :: (f, fn) :: l2b) := by
        simp [chainAddrs]
      rw [heq]
      exact List.Nodup.sublist (List.Sublist.map Prod.fst hsubl) hnd
    have hpwnew : List.Pairwise (fun x y => x ≤ y)
        (chainSizes (l1 ++ (c, { cn with next := some f }) :: (f, fn) :: l2b)) := by
      have heq : chainSizes (l1 ++ (c, { cn with next := some f }) :: (f, fn) :: l2b)
          = chainSizes (l1 ++ (c, cn) :: (f, fn) :: l2b) := by
        simp [chainSizes]
      rw [heq]
      exact List.Pairwise.sublist (List.Sublist.map _ hsubl) hpw
    have hchainS' : chainOf { setNode { s with freeList := fn.next } c
          { cn with next := some f } with current := some f }
        = some (l1 ++ (c, { cn with next := some f }) :: (f, fn) :: l2b) := by
      apply chainFrom_heapLength _ hndnew
      · exact fu3
      · rw [chainFrom_heapEq
          { setNode { s with freeList := fn.next } c { cn with next := some f } with
              current := some f }
          (setNode { s with freeList := fn.next } c { cn with next := some f }) rfl]
        exact hnew
    refine ⟨_, hchainS', hndnew, hpwnew,
      Or.inr ⟨f, fn, l1 ++ [(c, { cn with next := some f })], l2b, rfl, by simp, ?_⟩⟩
    cases l2b with
    | nil =>
      left
      obtain ⟨_, _, fu4, _, hrest⟩ := chainFrom_cons hsuf
      exact chainFrom_nil_ptr hrest
    | cons e2 l2b' =>
      right
      obtain ⟨g2, gn2⟩ := e2
      obtain ⟨_, _, fu4, _, hrest⟩ := chainFrom_cons hsuf
      exact ⟨g2, gn2, [], l2b', (chainFrom_cons hrest).1, rfl⟩
  · -- the reused node is untouched
    have h1 : getNode { setNode { s with freeList := fn.next } c { cn with next := some f } with
        current := some f } f
        = getNode (setNode { s with freeList := fn.next } c { cn with next := some f }) f := rfl
    rw [h1, getNode_setNode_ne _ _ (Ne.symm hcnef)]
    exact hflive
  · exact sizes_le_of_split hpw

/-- Growth when the free list is empty and the pool already has a chain:
a brand-new node of exactly the requested size is linked behind the
active node and the capacity counter grows by that size. -/
theorem resizeGrow_fresh {s : AllocState} {g c : Nat} {cn : PoolNode}
    {l1 l2 : List (Nat × PoolNode)}
    (hchain : chainOf s = some (l1 ++ (c, cn) :: l2))
    (hnd : (chainAddrs (l1 ++ (c, cn) :: l2)).Nodup)
    (hpw : List.Pairwise (fun x y => x ≤ y) (chainSizes (l1 ++ (c, cn) :: l2)))
    (hcur : s.current = some c) (hfl : s.freeList = none)
    (hg : cn.poolsize ≤ g) :
    ∃ s', resizeGrow g s = some s' ∧ goodWF s' ∧
      s'.heap.length = s.heap.length + 1 ∧ s'.capacity = s.capacity + g ∧
      s'.first = s.first ∧ s'.current = some s.heap.length ∧ s'.freeList = none ∧
      getNode s' s.heap.length = some { poolsize := g, currentIdx := 0, next := none } := by
  have hclive : getNode s c = some cn := chainFrom_live hchain (c, cn) (by simp)
  have hclt : c < s.heap.length := getNode_lt hclive
  obtain ⟨h0, hfirst⟩ : ∃ h0, s.first = some h0 := by
    cases l1 with
    | nil => exact ⟨c, by simpa using chainFrom_head_ptr hchain⟩
    | cons e l1 => exact ⟨e.1, by simpa using chainFrom_head_ptr hchain⟩
  have hnd' := hnd
  rw [chainAddrs_append, chainAddrs_cons, List.nodup_append] at hnd'
  have hcnotin1 : c ∉ chainAddrs l1 := by
    intro hmem
    exact hnd'.2.2 hmem (List.mem_cons_self c _)
  have hgfp : getFreePool s = some (none, s) := by
    simp [getFreePool, hfl]
  -- the state after the new node is created and the capacity bumped
  have hclive2 : getNode { appendNode s { poolsize := g, currentIdx := 0, next := none } with
      capacity := s.capacity + g } c = some cn :=
    getNode_appendNode hclive { poolsize := g, currentIdx := 0, next := none }
  have hAnew : getNode { appendNode s { poolsize := g, currentIdx := 0, next := none } with
      capacity := s.capacity + g } s.heap.length
      = some { poolsize := g, currentIdx := 0, next := none } :=
    getNode_appendNode_self s { poolsize := g, currentIdx := 0, next := none }
  have hcneA : c ≠ s.heap.length := Nat.ne_of_lt hclt
  refine ⟨{ setNode { appendNode s { poolsize := g, currentIdx := 0, next := none } with
              capacity := s.capacity + g } c { cn with next := some s.heap.length } with
            current := some s.heap.length }, ?_, ?_, ?_, rfl, rfl, rfl, hfl, ?_⟩
  · -- evaluation of resizeGrow
    have hclive3 : getNode { heap := s.heap ++ [some { poolsize := g, currentIdx := 0, next := none }],
                             first := some h0, current := some c, freeList := s.freeList,
                             capacity := s.capacity + g } c = some cn := hclive2
    simp [resizeGrow, hfirst, hgfp, hcur, appendNode, hclive3]
  · -- goodWF of the extended chain
    have hchain2 : chainFrom { appendNode s { poolsize := g, currentIdx := 0, next := none } with
        capacity := s.capacity + g } s.heap.length s.first = some (l1 ++ (c, cn) :: l2) := by
      rw [chainFrom_heapEq
        { appendNode s { poolsize := g, currentIdx := 0, next := none } with
            capacity := s.capacity + g }
        (appendNode s { poolsize := g, currentIdx := 0, next := none }) rfl]
      exact chainFrom_appendNode _ hchain
    have hq : chainFrom (setNode { appendNode s { poolsize := g, currentIdx := 0, next := none }
          with capacity := s.capacity + g } c { cn with next := some s.heap.length })
        1 (some s.heap.length)
        = some [(s.heap.length, { poolsize := g, currentIdx := 0, next := none })] := by
      have hA2 : getNode (setNode { appendNode s { poolsize := g, currentIdx := 0, next := none }
            with capacity := s.capacity + g } c { cn with next := some s.heap.length })
          s.heap.length = some { poolsize := g, currentIdx := 0, next := none } := by
        rw [getNode_setNode_ne _ _ (Ne.symm hcneA)]
        exact hAnew
      simp [chainFrom, hA2, chainFrom_none]
    obtain ⟨fu3, hnew⟩ := chainFrom_relink rfl hq hchain2 hcnotin1
    -- structure of the new chain
    have hpresub : (l1 ++ [(c, cn)]).Sublist (l1 ++ (c, cn) :: l2) :=
      List.Sublist.append_left ((List.nil_sublist l2).cons₂ (c, cn)) l1
    have haddrpre : ∀ a ∈ chainAddrs (l1 ++ [(c, cn)]), a < s.heap.length := by
      intro a ha
      apply chainAddrs_lt hchain
      have : (chainAddrs (l1 ++ [(c, cn)])).Sublist (chainAddrs (l1 ++ (c, cn) :: l2)) :=
        List.Sublist.map Prod.fst hpresub
      exact this.mem ha
    have hndnew : (chainAddrs (l1 ++ (c, { cn with next := some s.heap.length }) ::
        [(s.heap.length, { poolsize := g, currentIdx := 0, next := none })])).Nodup := by
      have heq : chainAddrs (l1 ++ (c, { cn with next := some s.heap.length }) ::
          [(s.heap.length, { poolsize := g, currentIdx := 0, next := none })])
          = chainAddrs (l1 ++ [(c, cn)]) ++ [s.heap.length] := by
        simp [chainAddrs]
      rw [heq]
      refine List.Nodup.append (List.Nodup.sublist (List.Sublist.map Prod.fst hpresub) hnd)
        (List.nodup_singleton _) ?_
      intro a ha hmem
      rw [List.mem_singleton] at hmem
      subst hmem
      exact absurd (haddrpre _ ha) (Nat.lt_irrefl _)
    have hpwnew : List.Pairwise (fun x y => x ≤ y)
        (chainSizes (l1 ++ (c, { cn with next := some s.heap.length }) ::
          [(s.heap.length, { poolsize := g, currentIdx := 0, next := none })])) := by
      have heq : chainSizes (l1 ++ (c, { cn with next := some s.heap.length }) ::
          [(s.heap.length, { poolsize := g, currentIdx := 0, next := none })])
          = chainSizes (l1 ++ [(c, cn)]) ++ [g] := by
        simp [chainSizes]
      rw [heq]
      rw [List.pairwise_append]
      refine ⟨List.Pairwise.sublist (List.Sublist.map _ hpresub) hpw, by simp, ?_⟩
      intro a ha b hb
      rw [List.mem_singleton] at hb
      subst hb
      -- every size left of (and including) the active node is at most g
      rw [chainSizes_append, chainSizes_cons, chainSizes_nil] at ha
      rcases List.mem_append.1 ha with ha | ha
      · -- a is a size in l1, hence at most cn.poolsize
        have hpw' := hpw
        rw [chainSizes_append, List.pairwise_append] at hpw'
        have := hpw'.2.2 a ha cn.poolsize (by rw [chainSizes_cons]; simp)
        omega
      · have : a = cn.poolsize := by simpa using ha
        omega
    have hchainS' : chainOf { setNode { appendNode s { poolsize := g, currentIdx := 0, next := none } with
          capacity := s.capacity + g } c
          { cn with next := some s.heap.length } with current := some s.heap.length }
        = some (l1 ++ (c, { cn with next := some s.heap.length }) ::
            [(s.heap.length, { poolsize := g, currentIdx := 0, next := none })]) := by
      apply chainFrom_heapLength _ hndnew
      · exact fu3
      · rw [chainFrom_heapEq
          { setNode { appendNode s { poolsize := g, currentIdx := 0, next := none } with
              capacity := s.capacity + g } c { cn with next := some s.heap.length } with
              current := some s.heap.length }
          (setNode { appendNode s { poolsize := g, currentIdx := 0, next := none } with
              capacity := s.capacity + g } c { cn with next := some s.heap.length }) rfl]
        exact hnew
    exact ⟨_, hchainS', hndnew, hpwnew,
      Or.inr ⟨s.heap.length, { poolsize := g, currentIdx := 0, next := none },
        l1 ++ [(c, { cn with next := some s.heap.length })], [], rfl, by simp, Or.inl hfl⟩⟩
  · simp [setNode, appendNode]
  · have hfin : getNode (setNode { appendNode s { poolsize := g, currentIdx := 0, next := none } with
        capacity := s.capacity + g } c { cn with next := some s.heap.length }) s.heap.length
        = some { poolsize := g, currentIdx := 0, next := none } := by
      rw [getNode_setNode_ne _ _ (Ne.symm hcneA)]
      exact hAnew
    exact hfin

/-! ### Cursor stores preserve well-formedness -/

theorem getNode_appendNode_lt {s : AllocState} {a : Nat} (h : a < s.heap.length)
    (x : PoolNode) : getNode (appendNode s x) a = getNode s a := by
  simp [getNode, appendNode, List.getElem?_append_left h]

theorem updEntry_fst (a : Nat) (n : PoolNode) (e : Nat × PoolNode) :
    (updEntry a n e).1 = e.1 := by
  by_cases h : e.1 = a <;> simp [updEntry, h]

theorem chainAddrs_map_updEntry (a : Nat) (n : PoolNode) (l : List (Nat × PoolNode)) :
    chainAddrs (l.map (updEntry a n)) = chainAddrs l := by
  simp only [chainAddrs, List.map_map]
  exact List.map_congr_left fun e _ => updEntry_fst a n e

/-- A store that changes only the cursor of a live node keeps the state
well-formed. -/
theorem goodWF_setNode_cursor {s : AllocState} {a : Nat} (n : PoolNode) (k : Nat)
    (hwf : goodWF s) (hlive : getNode s a = some n) :
    goodWF (setNode s a { n with currentIdx := k }) := by
  obtain ⟨l, hchain, hnd, hpw, hcases⟩ := hwf
  have hupd := chainFrom_setNode_samenext hlive { n with currentIdx := k } rfl hchain
  have hchain' : chainOf (setNode s a { n with currentIdx := k })
      = some (l.map (updEntry a { n with currentIdx := k })) := by
    have hlen : (setNode s a { n with currentIdx := k }).heap.length = s.heap.length :=
      heapLength_setNode s a _
    show chainFrom _ _ _ = _
    rw [hlen]
    exact hupd
  have hnd' : (chainAddrs (l.map (updEntry a { n with currentIdx := k }))).Nodup := by
    rw [chainAddrs_map_updEntry]; exact hnd
  have hsz : chainSizes (l.map (updEntry a { n with currentIdx := k })) = chainSizes l := by
    simp only [chainSizes, List.map_map]
    refine List.map_congr_left fun e he => ?_
    by_cases hea : e.1 = a
    · have : getNode s e.1 = some e.2 := chainFrom_live hchain e he
      rw [hea] at this
      rw [hlive] at this
      obtain hen : n = e.2 := Option.some.inj this
      simp [updEntry, hea, Function.comp, hen.symm]
    · simp [updEntry, hea, Function.comp]
  refine ⟨l.map (updEntry a { n with currentIdx := k }), hchain', hnd', by rw [hsz]; exact hpw, ?_⟩
  rcases hcases with ⟨hcn, hf, hfl⟩ | ⟨c, cn, l1, l2, hcur, hdec, hflcase⟩
  · exact Or.inl ⟨hcn, hf, hfl⟩
  · refine Or.inr ⟨c, (updEntry a { n with currentIdx := k } (c, cn)).2,
      l1.map (updEntry a { n with currentIdx := k }), l2.map (updEntry a { n with currentIdx := k }),
      hcur, ?_, ?_⟩
    · rw [hdec]
      simp only [List.map_append, List.map_cons]
      have hce : updEntry a { n with currentIdx := k } (c, cn)
          = (c, (updEntry a { n with currentIdx := k } (c, cn)).2) := by
        by_cases hca : c = a <;> simp [updEntry, hca]
      rw [hce.symm]
    rcases hflcase with hfl | ⟨f, fn, l2a, l2b, hfl, hdec2⟩
    · exact Or.inl hfl
    · refine Or.inr ⟨f, (updEntry a { n with currentIdx := k } (f, fn)).2,
        l2a.map (updEntry a { n with currentIdx := k }), l2b.map (updEntry a { n with currentIdx := k }),
        hfl, ?_⟩
      rw [hdec2]
      simp only [List.map_append, List.map_cons]
      have : updEntry a { n with currentIdx := k } (f, fn)
          = (f, (updEntry a { n with currentIdx := k } (f, fn)).2) := by
        by_cases hfa : f = a <;> simp [updEntry, hfa]
      rw [this.symm]

/-! ### `resize` preserves well-formedness -/

theorem resize_goodWF {s s' : AllocState} {g : Nat}
    (hwf : goodWF s) (h : resize g s = some s') : goodWF s' := by
  cases hcur : s.current with
  | none =>
    obtain ⟨hf, hfl, _⟩ := goodWF_none hwf hcur
    obtain ⟨s'', hev, hwf'', _⟩ := resizeGrow_empty g hf hfl
    simp only [resize, hcur] at h
    rw [hev] at h
    obtain rfl : s'' = s' := Option.some.inj h
    exact hwf''
  | some c =>
    obtain ⟨l, l1, cn, l2, hchain, hnd, hpw, hdec, hflcase⟩ := goodWF_some hwf hcur
    subst hdec
    have hclive : getNode s c = some cn := chainFrom_live hchain (c, cn) (by simp)
    simp only [resize, hcur, hclive] at h
    by_cases hlt : g < cn.poolsize
    · rw [if_pos hlt] at h
      obtain rfl : s = s' := Option.some.inj h
      exact hwf
    · rw [if_neg hlt] at h
      rcases hflcase with hfl | ⟨f, fn, l2a, l2b, hfl, hdec2⟩
      · obtain ⟨s'', hev, hwf'', _⟩ :=
          resizeGrow_fresh hchain hnd hpw hcur hfl (Nat.le_of_not_lt hlt)
        rw [hev] at h
        obtain rfl : s'' = s' := Option.some.inj h
        exact hwf''
      · subst hdec2
        obtain ⟨s'', hev, hwf'', _⟩ := resizeGrow_reuse g hchain hnd hpw hcur hfl
        rw [hev] at h
        obtain rfl : s'' = s' := Option.some.inj h
        exact hwf''

/-! ### `release` specification -/

theorem chainAddrs_map_zero (l : List (Nat × PoolNode)) :
    chainAddrs (l.map (fun e => (e.1, zeroCur e.2))) = chainAddrs l := by
  simp [chainAddrs, List.map_map, Function.comp]

theorem chainSizes_map_zero (l : List (Nat × PoolNode)) :
    chainSizes (l.map (fun e => (e.1, zeroCur e.2))) = chainSizes l := by
  simp [chainSizes, List.map_map, Function.comp, zeroCur]

/-- `release` on a well-formed pool with an active node: every chain
cursor is rewound to 0, the head becomes active again, the free list
becomes the head's successor chain, and no node is freed. -/
theorem release_spec {s : AllocState} {c : Nat} (hwf : goodWF s) (hcur : s.current = some c) :
    ∃ f0 n0 rest s', chainOf s = some ((f0, n0) :: rest) ∧ s.first = some f0 ∧
      release s = some s' ∧ goodWF s' ∧
      s'.heap.length = s.heap.length ∧ s'.capacity = s.capacity ∧
      s'.first = s.first ∧ s'.current = some f0 ∧ s'.freeList = n0.next ∧
      (∀ e ∈ (f0, n0) :: rest, getNode s' e.1 = some (zeroCur e.2)) ∧
      (∀ b, b ∉ chainAddrs ((f0, n0) :: rest) → getNode s' b = getNode s b) ∧
      chainOf s' = some (((f0, n0) :: rest).map (fun e => (e.1, zeroCur e.2))) := by
  obtain ⟨l, l1, cn, l2, hchain, hnd, hpw, hdec, hflcase⟩ := goodWF_some hwf hcur
  subst hdec
  obtain ⟨f0, n0, rest, hl⟩ : ∃ f0 n0 rest, l1 ++ (c, cn) :: l2 = (f0, n0) :: rest := by
    cases l1 with
    | nil => exact ⟨c, cn, l2, rfl⟩
    | cons e l1 => exact ⟨e.1, e.2, l1 ++ (c, cn) :: l2, by simp⟩
  rw [hl] at hchain hnd hpw
  have hfirst : s.first = some f0 := by simpa using chainFrom_head_ptr hchain
  obtain ⟨s1, hrc, hlen, hfe, hcu, hfl1, hcap, hzero, hoff, hchain1⟩ :=
    resetCursors_spec hchain hnd
  have hg0 : getNode s1 f0 = some (zeroCur n0) := hzero (f0, n0) (List.mem_cons_self _ _)
  have hfe0 : s1.first = some f0 := by rw [hfe]; exact hfirst
  set s2 : AllocState := { s1 with freeList := (zeroCur n0).next, current := some f0 } with hs2
  have hrel : release s = some s2 := by
    simp only [release, hcur, hrc, hfe0, hg0, hs2]
  have hlen2 : s2.heap.length = s.heap.length := hlen
  have hfe2 : s2.first = s.first := hfe
  have hchain2 : chainOf s2 = some (((f0, n0) :: rest).map (fun e => (e.1, zeroCur e.2))) := by
    show chainFrom s2 s2.heap.length s2.first = _
    rw [hlen2, hfe2, chainFrom_heapEq s2 s1 rfl]
    exact hchain1
  have hwf2 : goodWF s2 := by
    refine ⟨((f0, n0) :: rest).map (fun e => (e.1, zeroCur e.2)), hchain2, ?_, ?_, ?_⟩
    · rw [chainAddrs_map_zero]; exact hnd
    · rw [chainSizes_map_zero]; exact hpw
    · refine Or.inr ⟨f0, zeroCur n0, [], rest.map (fun e => (e.1, zeroCur e.2)), rfl,
        by simp, ?_⟩
      cases hr : rest with
      | nil =>
        left
        obtain ⟨_, _, fuel2, _, hrest⟩ := chainFrom_cons hchain
        rw [hr] at hrest
        show s2.freeList = none
        have : n0.next = none := chainFrom_nil_ptr hrest
        show (zeroCur n0).next = none
        exact this
      | cons e2 rest' =>
        right
        obtain ⟨_, _, fuel2, _, hrest⟩ := chainFrom_cons hchain
        rw [hr] at hrest
        have hn2 : n0.next = some e2.1 := by
          rcases e2 with ⟨g2, gn2⟩
          exact (chainFrom_cons hrest).1
        refine ⟨e2.1, zeroCur e2.2, [], rest'.map (fun e => (e.1, zeroCur e.2)), ?_, by simp⟩
        show (zeroCur n0).next = some e2.1
        exact hn2
  have hzero2 : ∀ e ∈ (f0, n0) :: rest, getNode s2 e.1 = some (zeroCur e.2) := hzero
  have hoff2 : ∀ b, b ∉ chainAddrs ((f0, n0) :: rest) → getNode s2 b = getNode s b := hoff
  exact ⟨f0, n0, rest, s2, hchain, hfirst, hrel, hwf2, hlen2, hcap, hfe2, rfl, rfl,
    hzero2, hoff2, hchain2⟩

/-! ### `clear` and `reserve` -/

theorem chainFrom_dangling {s : AllocState} {a : Nat} (h : getNode s a = none)
    (fuel : Nat) : chainFrom s fuel (some a) = none := by
  cases fuel with
  | zero => rfl
  | succ fuel => simp [chainFrom, h]

theorem deleteChain_ptr_none (s : AllocState) (fuel : Nat) :
    deleteChain s fuel none = some s := by
  cases fuel <;> rfl

theorem deleteChain_meta : ∀ {fuel : Nat} {p : Option Nat} {s s' : AllocState},
    deleteChain s fuel p = some s' →
    s'.first = s.first ∧ s'.current = s.current ∧ s'.freeList = s.freeList ∧
    s'.capacity = s.capacity ∧ s'.heap.length = s.heap.length := by
  intro fuel
  induction fuel with
  | zero =>
    intro p s s' h
    cases p with
    | none =>
      obtain rfl : s = s' := Option.some.inj h
      exact ⟨rfl, rfl, rfl, rfl, rfl⟩
    | some a => simp [deleteChain] at h
  | succ fuel ih =>
    intro p s s' h
    cases p with
    | none =>
      obtain rfl : s = s' := Option.some.inj h
      exact ⟨rfl, rfl, rfl, rfl, rfl⟩
    | some a =>
      simp only [deleteChain] at h
      cases hg : getNode s a with
      | none => rw [hg] at h; simp at h
      | some n =>
        rw [hg] at h
        obtain ⟨h1, h2, h3, h4, h5⟩ := ih h
        refine ⟨?_, ?_, ?_, ?_, ?_⟩
        · rw [h1]; rfl
        · rw [h2]; rfl
        · rw [h3]; rfl
        · rw [h4]; rfl
        · rw [h5, heapLength_delNode]

/-- What `clear` does in every state where it does not fault: it nulls
`m_current` (and, when it ran the teardown walk, `m_freeList`), but keeps
`m_first` and `m_capacity` as they were. -/
theorem clear_post {s s' : AllocState} (h : clear s = some s') :
    s'.current = none ∧ s'.first = s.first ∧ s'.capacity = s.capacity ∧
    s'.heap.length = s.heap.length ∧ (s.current = none → s' = s) := by
  cases hcur : s.current with
  | none =>
    simp only [clear, hcur] at h
    obtain rfl : s = s' := Option.some.inj h
    exact ⟨hcur, rfl, rfl, rfl, fun _ => rfl⟩
  | some c =>
    simp only [clear, hcur] at h
    cases hdel : deleteChain s s.heap.length s.first with
    | none => rw [hdel] at h; simp at h
    | some s1 =>
      rw [hdel] at h
      obtain ⟨h1, _, _, h4, h5⟩ := deleteChain_meta hdel
      obtain rfl := Option.some.inj h
      refine ⟨rfl, h1, h4, h5, ?_⟩
      intro habs
      exact Option.noConfusion habs

/-- `clear` on a second call is the identity. -/
theorem clear_of_current_none {s : AllocState} (h : s.current = none) :
    clear s = some s := by
  simp [clear, h]

/-- Teardown from any invariant state: the result is a stuck state with a
null free list, and every node of the old chain has been freed. -/
theorem clear_WF {s s' : AllocState} (hwf : WF s) (h : clear s = some s') :
    WF s' ∧ s'.freeList = none ∧
    (∀ l, chainOf s = some l → ∀ a ∈ chainAddrs l, getNode s' a = none) := by
  cases hcur : s.current with
  | none =>
    obtain rfl : s = s' := Option.some.inj (by rw [clear_of_current_none hcur] at h; exact h)
    have hfl : s.freeList = none := by
      rcases hwf with hg | hst
      · exact (goodWF_none hg hcur).2.1
      · exact hst.2.2
    refine ⟨hwf, hfl, ?_⟩
    intro l hl a ha
    rcases hwf with hg | hst
    · obtain ⟨_, _, hnil⟩ := goodWF_none hg hcur
      obtain rfl : l = [] := Option.some.inj (hl.symm.trans hnil)
      simp [chainAddrs] at ha
    · cases hfe : s.first with
      | none =>
        rw [show chainOf s = chainFrom s s.heap.length s.first from rfl, hfe,
          chainFrom_none] at hl
        obtain rfl : l = [] := (Option.some.inj hl).symm
        simp [chainAddrs] at ha
      | some a0 =>
        have hdead : getNode s a0 = none := hst.1 a0 hfe
        rw [show chainOf s = chainFrom s s.heap.length s.first from rfl, hfe,
          chainFrom_dangling hdead] at hl
        exact absurd hl (by simp)
  | some c =>
    simp only [clear, hcur] at h
    rcases hwf with hg | hst
    · obtain ⟨l, l1, cn, l2, hchain, hnd, hpw, hdec, _⟩ := goodWF_some hg hcur
      subst hdec
      obtain ⟨f0, n0, rest, hl⟩ : ∃ f0 n0 rest, l1 ++ (c, cn) :: l2 = (f0, n0) :: rest := by
        cases l1 with
        | nil => exact ⟨c, cn, l2, rfl⟩
        | cons e l1 => exact ⟨e.1, e.2, l1 ++ (c, cn) :: l2, by simp⟩
      rw [hl] at hchain hnd
      have hfirst : s.first = some f0 := by simpa using chainFrom_head_ptr hchain
      obtain ⟨s1, hdel, hlen, hfe, hcu, hfl1, hcap, hdead, hoff⟩ := deleteChain_spec hchain hnd
      rw [hdel] at h
      obtain rfl := Option.some.inj h
      refine ⟨Or.inr ⟨?_, by simp, rfl⟩, rfl, ?_⟩
      · intro a ha
        have ha1 : s1.first = some a := ha
        rw [hfe, hfirst] at ha1
        obtain rfl : f0 = a := Option.some.inj ha1
        have hmem : f0 ∈ chainAddrs ((f0, n0) :: rest) := by
          rw [chainAddrs_cons]
          exact List.mem_cons_self _ _
        exact hdead f0 hmem
      · intro l' hl' a ha
        obtain rfl : l' = (f0, n0) :: rest := Option.some.inj (hl'.symm.trans hchain)
        exact hdead a ha
    · -- stuck with a non-null current pointer
      cases hfe : s.first with
      | none =>
        rw [hfe, deleteChain_ptr_none] at h
        obtain rfl := Option.some.inj h
        refine ⟨Or.inr ⟨by simp [hfe], by simp, rfl⟩, rfl, ?_⟩
        intro l hl a ha
        rw [show chainOf s = chainFrom s s.heap.length s.first from rfl, hfe,
          chainFrom_none] at hl
        obtain rfl : l = [] := (Option.some.inj hl).symm
        simp [chainAddrs] at ha
      | some a0 =>
        have hdead : getNode s a0 = none := hst.1 a0 hfe
        rw [hfe] at h
        cases hfl : s.heap.length with
        | zero => rw [hfl] at h; simp [deleteChain] at h
        | succ k =>
          rw [hfl] at h
          simp [deleteChain, hdead] at h

/-- A state whose chain is one fresh node (the shape built by `reserve`
and by growth of an empty pool) is well-formed. -/
theorem goodWF_mk_single (h : List (Option PoolNode)) (m cap : Nat) :
    goodWF { heap := h ++ [some { poolsize := m, currentIdx := 0, next := none }],
             first := some h.length, current := some h.length,
             freeList := none, capacity := cap } := by
  refine ⟨[(h.length, { poolsize := m, currentIdx := 0, next := none })], ?_,
    by simp [chainAddrs], by simp [chainSizes],
    Or.inr ⟨h.length, { poolsize := m, currentIdx := 0, next := none }, [], [],
      rfl, rfl, Or.inl rfl⟩⟩
  simp [chainOf, chainFrom, getNode, List.getElem?_concat_length, chainFrom_none]

/-- `reserve` from any invariant state in which `clear` does not fault:
all old chain nodes are freed and the pool is exactly one fresh node of
the requested size, with `capacity = size`. -/
theorem reserve_post {s s' : AllocState} {m : Nat} (hwf : WF s) (h : reserve m s = some s') :
    goodWF s' ∧ s'.capacity = m ∧ s'.freeList = none ∧
      s'.first = some s.heap.length ∧ s'.current = some s.heap.length ∧
      s'.heap.length = s.heap.length + 1 ∧
      getNode s' s.heap.length = some { poolsize := m, currentIdx := 0, next := none } ∧
      chainOf s' = some [(s.heap.length, { poolsize := m, currentIdx := 0, next := none })] ∧
      (∀ l, chainOf s = some l → ∀ a ∈ chainAddrs l, getNode s' a = none) := by
  simp only [reserve] at h
  cases hcl : clear s with
  | none => rw [hcl] at h; simp at h
  | some s1 =>
    rw [hcl] at h
    obtain ⟨hwf1, hfl1, hdead1⟩ := clear_WF hwf hcl
    obtain ⟨_, _, _, hlen1, _⟩ := clear_post hcl
    set A := s1.heap.length with hA
    set s2 : AllocState := { appendNode s1 { poolsize := m, currentIdx := 0, next := none } with
      first := some A, current := some A, capacity := m } with hs2
    obtain rfl : s2 = s' := Option.some.inj h
    have hfl2 : s2.freeList = none := hfl1
    have hA2 : getNode s2 A = some { poolsize := m, currentIdx := 0, next := none } :=
      getNode_appendNode_self s1 { poolsize := m, currentIdx := 0, next := none }
    have hlen2 : s2.heap.length = A + 1 := by
      simp [hs2, appendNode]
    have hchain2 : chainOf s2 = some [(A, { poolsize := m, currentIdx := 0, next := none })] := by
      show chainFrom s2 s2.heap.length s2.first = _
      rw [hlen2, show s2.first = some A from rfl]
      simp [chainFrom, hA2, chainFrom_none]
    have hwf2 : goodWF s2 :=
      ⟨[(A, { poolsize := m, currentIdx := 0, next := none })], hchain2,
        by simp [chainAddrs], by simp [chainSizes],
        Or.inr ⟨A, { poolsize := m, currentIdx := 0, next := none }, [], [],
          rfl, rfl, Or.inl hfl2⟩⟩
    refine ⟨hwf2, rfl, hfl2, ?_, ?_, ?_, ?_, ?_, ?_⟩
    · exact congrArg some hlen1
    · exact congrArg some hlen1
    · rw [hlen2, hlen1]
    · rw [← hlen1]
      exact hA2
    · rw [← hlen1]
      exact hchain2
    · intro l hl a ha
      have halt : a < s1.heap.length := by
        rw [show s1.heap.length = s.heap.length from hlen1]
        exact chainAddrs_lt hl a ha
      have : getNode s2 a
          = getNode (appendNode s1 { poolsize := m, currentIdx := 0, next := none }) a := rfl
      rw [this, getNode_appendNode_lt halt]
      exact hdead1 l hl a ha

/-! ### Constructors, `reset`, and `alloc` -/

theorem goodWF_mkPool : goodWF mkPool :=
  ⟨[], rfl, by simp [chainAddrs], by simp [chainSizes], Or.inl ⟨rfl, rfl, rfl⟩⟩

theorem goodWF_mkPoolSized (n : Nat) : goodWF (mkPoolSized n) := by
  refine ⟨[(0, { poolsize := n, currentIdx := 0, next := none })], ?_,
    by simp [chainAddrs], by simp [chainSizes],
    Or.inr ⟨0, { poolsize := n, currentIdx := 0, next := none }, [], [],
      rfl, rfl, Or.inl rfl⟩⟩
  simp [chainOf, chainFrom, mkPoolSized, getNode, chainFrom_none]

theorem reset_WF {s : AllocState} (hwf : WF s) : WF (reset s) := by
  rcases hwf with hg | hst
  · obtain ⟨l, hchain, hnd, hpw, hcases⟩ := hg
    cases hfe : s.first with
    | none =>
      have hl0 : l = [] := by
        have : chainOf s = some [] := by
          rw [show chainOf s = chainFrom s s.heap.length s.first from rfl, hfe, chainFrom_none]
        exact Option.some.inj (hchain.symm.trans this)
      subst hl0
      left
      refine ⟨[], by rw [show chainOf (reset s) = chainFrom (reset s)
        (reset s).heap.length (reset s).first from rfl,
        show (reset s).first = s.first from rfl, hfe, chainFrom_none], by simp [chainAddrs],
        by simp [chainSizes], Or.inl ⟨?_, ?_, ?_⟩⟩
      · show s.first = none
        exact hfe
      · show s.first = none
        exact hfe
      · show s.freeList = none
        rcases hcases with ⟨_, _, hfl⟩ | ⟨c, cn, l1, l2, _, hdec, _⟩
        · exact hfl
        · exact absurd hdec (by simp)
    | some f0 =>
      obtain ⟨f0', n0, rest, hl⟩ : ∃ f0' n0 rest, l = (f0', n0) :: rest := by
        cases hll : l with
        | nil =>
          have := chainFrom_nil_ptr (by rw [hll] at hchain; exact hchain)
          rw [hfe] at this
          exact absurd this (by simp)
        | cons e rest => exact ⟨e.1, e.2, rest, by simp⟩
      subst hl
      obtain rfl : f0 = f0' := by
        have h1 := (chainFrom_cons hchain).1
        rw [hfe] at h1
        exact Option.some.inj h1
      left
      have hchain' : chainOf (reset s) = some ((f0, n0) :: rest) := by
        rw [show chainOf (reset s) = chainFrom (reset s) (reset s).heap.length
          (reset s).first from rfl, show (reset s).first = s.first from rfl]
        rw [chainFrom_heapEq (reset s) s rfl]
        exact hchain
      refine ⟨(f0, n0) :: rest, hchain', hnd, hpw, Or.inr ⟨f0, n0, [], rest, ?_, by simp, ?_⟩⟩
      · show s.first = some f0
        exact hfe
      · -- the free list, if non-null, sits strictly inside the tail
        rcases hcases with ⟨hcn, hfn, hfl⟩ | ⟨c, cn, l1, l2, hcur, hdec, hflcase⟩
        · left
          show s.freeList = none
          exact hfl
        · rcases hflcase with hfl | ⟨f, fn, l2a, l2b, hfl, hdec2⟩
          · left
            show s.freeList = none
            exact hfl
          · right
            subst hdec2
            cases l1 with
            | nil =>
              have hdec' := hdec
              simp only [List.nil_append, List.cons.injEq] at hdec'
              refine ⟨f, fn, l2a, l2b, ?_, ?_⟩
              · show s.freeList = some f
                exact hfl
              · rw [hdec'.2]
            | cons e l1' =>
              have hdec' := hdec
              simp only [List.cons_append, List.cons.injEq] at hdec'
              refine ⟨f, fn, l1' ++ (c, cn) :: l2a, l2b, ?_, ?_⟩
              · show s.freeList = some f
                exact hfl
              · rw [hdec'.2]
                simp
  · right
    refine ⟨hst.1, ?_, hst.2.2⟩
    intro a ha
    have : s.first = some a := ha
    exact hst.1 a this

theorem alloc_current_none {s : AllocState} (h : s.current = none) :
    alloc s = some (none, s) := by
  simp [alloc, h]

/-- Fast path of `alloc`: the active node has room, so the slot under the
cursor is handed out and the cursor is bumped. -/
theorem alloc_notfull {s : AllocState} {c : Nat} {cn : PoolNode}
    (hcur : s.current = some c) (hclive : getNode s c = some cn)
    (hne : cn.currentIdx ≠ cn.poolsize) :
    alloc s = some (some (c, cn.currentIdx),
      setNode s c { cn with currentIdx := cn.currentIdx + 1 }) := by
  simp [alloc, hcur, hclive, hne]

/-- Anatomy of a successful `alloc` on a pool with an active node. -/
theorem alloc_some_elim {s : AllocState} {c : Nat} {r : Option Ptr} {s' : AllocState}
    (hcur : s.current = some c) (h : alloc s = some (r, s')) :
    ∃ cn s1 c1 cn1, getNode s c = some cn ∧
      (if cn.currentIdx = cn.poolsize then resize cn.poolsize s else some s) = some s1 ∧
      s1.current = some c1 ∧ getNode s1 c1 = some cn1 ∧
      r = some (c1, cn1.currentIdx) ∧
      s' = setNode s1 c1 { cn1 with currentIdx := cn1.currentIdx + 1 } := by
  simp only [alloc, hcur] at h
  cases hg : getNode s c with
  | none => simp [hg] at h
  | some cn =>
    cases hres : (if cn.currentIdx = cn.poolsize then resize cn.poolsize s else some s) with
    | none => simp [hg, hres] at h
    | some s1 =>
      cases hc1 : s1.current with
      | none => simp [hg, hres, hc1] at h
      | some c1 =>
        cases hg1 : getNode s1 c1 with
        | none => simp [hg, hres, hc1, hg1] at h
        | some cn1 =>
          simp only [hg, hres, hc1, hg1, Option.some.injEq, Prod.mk.injEq] at h
          exact ⟨cn, s1, c1, cn1, rfl, hres, hc1, hg1, h.1.symm, h.2.symm⟩

/-- The null result of `alloc` happens exactly on a pool with no active
node. -/
theorem alloc_result_none_iff {s s' : AllocState} {r : Option Ptr}
    (h : alloc s = some (r, s')) : r = none ↔ s.current = none := by
  cases hcur : s.current with
  | none =>
    rw [alloc_current_none hcur] at h
    have h2 := Option.some.inj h
    have hr : r = none := (congrArg Prod.fst h2).symm
    simp [hr, hcur]
  | some c =>
    obtain ⟨cn, s1, c1, cn1, _, _, _, _, hr, _⟩ := alloc_some_elim hcur h
    rw [hr]
    simp

/-- A non-null `alloc` result is the slot under the (possibly new) active
node's cursor, which is bumped by one. -/
theorem alloc_ptr_slot {s s' : AllocState} {p : Ptr}
    (h : alloc s = some (some p, s')) :
    ∃ a n', s'.current = some a ∧ getNode s' a = some n' ∧
      p.1 = a ∧ n'.currentIdx = p.2 + 1 := by
  cases hcur : s.current with
  | none =>
    rw [alloc_current_none hcur] at h
    have h2 := Option.some.inj h
    exact absurd (congrArg Prod.fst h2) (by simp)
  | some c =>
    obtain ⟨cn, s1, c1, cn1, hg, hres, hc1, hg1, hr, hs'⟩ := alloc_some_elim hcur h
    obtain rfl : p = (c1, cn1.currentIdx) := Option.some.inj hr
    subst hs'
    refine ⟨c1, { cn1 with currentIdx := cn1.currentIdx + 1 }, ?_, ?_, rfl, rfl⟩
    · show s1.current = some c1
      exact hc1
    · exact getNode_setNode_self hg1 _

theorem alloc_WF {s s' : AllocState} {r : Option Ptr} (hwf : WF s)
    (h : alloc s = some (r, s')) : WF s' := by
  cases hcur : s.current with
  | none =>
    rw [alloc_current_none hcur] at h
    obtain rfl : s = s' := congrArg Prod.snd (Option.some.inj h)
    exact hwf
  | some c =>
    obtain ⟨cn, s1, c1, cn1, hg, hres, hc1, hg1, hr, hs'⟩ := alloc_some_elim hcur h
    have hgood : goodWF s := by
      rcases hwf with hgood | hst
      · exact hgood
      · exact absurd hg (by rw [hst.2.1 c hcur]; simp)
    have hwf1 : goodWF s1 := by
      by_cases hfull : cn.currentIdx = cn.poolsize
      · rw [if_pos hfull] at hres
        exact resize_goodWF hgood hres
      · rw [if_neg hfull] at hres
        obtain rfl : s = s1 := Option.some.inj hres
        exact hgood
    subst hs'
    exact Or.inl (goodWF_setNode_cursor _ _ hwf1 hg1)

/-- Growth triggered by `alloc` on a full active node: the free-list head
is reused when there is one (no new node, no capacity change, and the
reused node is large enough); otherwise a brand-new node of exactly the
full node's size is created and the capacity counter grows by that size. -/
theorem alloc_full_spec {s : AllocState} {c : Nat} {cn : PoolNode}
    (hwf : goodWF s) (hcur : s.current = some c) (hclive : getNode s c = some cn)
    (hfull : cn.currentIdx = cn.poolsize) :
    (∀ f, s.freeList = some f →
      ∃ fn r s', getNode s f = some fn ∧ cn.poolsize ≤ fn.poolsize ∧
        alloc s = some (some r, s') ∧ s'.current = some f ∧
        s'.heap.length = s.heap.length ∧ s'.capacity = s.capacity ∧ goodWF s') ∧
    (s.freeList = none →
      ∃ r s', alloc s = some (some r, s') ∧ s'.current = some s.heap.length ∧
        getNode s' s.heap.length
          = some { poolsize := cn.poolsize, currentIdx := 1, next := none } ∧
        s'.heap.length = s.heap.length + 1 ∧ s'.capacity = s.capacity + cn.poolsize ∧
        goodWF s') := by
  obtain ⟨l, l1, cn', l2, hchain, hnd, hpw, hdec, hflcase⟩ := goodWF_some hwf hcur
  obtain rfl : cn = cn' := by
    have hx := chainFrom_live hchain (c, cn') (by rw [hdec]; simp)
    rw [hclive] at hx
    exact Option.some.inj hx
  subst hdec
  constructor
  · intro f hfl
    rcases hflcase with hnone | ⟨f', fn, l2a, l2b, hfl', hdec2⟩
    · rw [hnone] at hfl
      exact absurd hfl (by simp)
    · obtain rfl : f = f' := Option.some.inj (hfl.symm.trans hfl')
      subst hdec2
      obtain ⟨s1, hev, hwf1, hlen1, hcap1, hfe1, hcu1, hgf1, hsz⟩ :=
        resizeGrow_reuse cn.poolsize hchain hnd hpw hcur hfl
      have hresize : resize cn.poolsize s = some s1 := by
        simp only [resize, hcur, hclive, if_neg (Nat.lt_irrefl cn.poolsize)]
        exact hev
      have hflive : getNode s f = some fn :=
        chainFrom_live hchain (f, fn) (by simp)
      have halloc : alloc s = some (some (f, fn.currentIdx),
          setNode s1 f { fn with currentIdx := fn.currentIdx + 1 }) := by
        simp only [alloc, hcur, hclive, if_pos hfull, hresize, hcu1, hgf1]
      refine ⟨fn, (f, fn.currentIdx), setNode s1 f { fn with currentIdx := fn.currentIdx + 1 },
        hflive, hsz, halloc, ?_, ?_, ?_, ?_⟩
      · show s1.current = some f
        exact hcu1
      · rw [heapLength_setNode]
        exact hlen1
      · show s1.capacity = s.capacity
        exact hcap1
      · exact goodWF_setNode_cursor _ _ hwf1 hgf1
  · intro hfl
    obtain ⟨s1, hev, hwf1, hlen1, hcap1, hfe1, hcu1, hfl1, hgA⟩ :=
      resizeGrow_fresh hchain hnd hpw hcur hfl (Nat.le_refl cn.poolsize)
    have hresize : resize cn.poolsize s = some s1 := by
      simp only [resize, hcur, hclive, if_neg (Nat.lt_irrefl cn.poolsize)]
      exact hev
    have halloc : alloc s = some (some (s.heap.length, 0),
        setNode s1 s.heap.length { poolsize := cn.poolsize, currentIdx := 1, next := none }) := by
      simp only [alloc, hcur, hclive, if_pos hfull, hresize, hcu1, hgA]
    refine ⟨(s.heap.length, 0),
      setNode s1 s.heap.length { poolsize := cn.poolsize, currentIdx := 1, next := none },
      halloc, ?_, ?_, ?_, ?_, ?_⟩
    · show s1.current = some s.heap.length
      exact hcu1
    · exact getNode_setNode_self hgA _
    · rw [heapLength_setNode]
      exact hlen1
    · show s1.capacity = s.capacity + cn.poolsize
      exact hcap1
    · exact goodWF_setNode_cursor _ 1 hwf1 hgA

/-! ### Invariant preservation across the public interface -/

theorem resetCursors_ptr_none (s : AllocState) (fuel : Nat) :
    resetCursors s fuel none = some s := by
  cases fuel <;> rfl

theorem release_WF {s s' : AllocState} (hwf : WF s) (h : release s = some s') : WF s' := by
  cases hcur : s.current with
  | none =>
    simp only [release, hcur] at h
    obtain rfl : s = s' := Option.some.inj h
    exact hwf
  | some c =>
    rcases hwf with hg | hst
    · obtain ⟨f0, n0, rest, s'', _, _, hrel, hwf', _⟩ := release_spec hg hcur
      rw [hrel] at h
      obtain rfl : s'' = s' := Option.some.inj h
      exact Or.inl hwf'
    · exfalso
      simp only [release, hcur] at h
      cases hfe : s.first with
      | none =>
        simp [hfe, resetCursors_ptr_none] at h
      | some a0 =>
        have hdead : getNode s a0 = none := hst.1 a0 hfe
        rw [hfe] at h
        cases hl : s.heap.length with
        | zero => rw [hl] at h; simp [resetCursors] at h
        | succ k => rw [hl] at h; simp [resetCursors, hdead] at h

theorem resize_WF {s s' : AllocState} {g : Nat} (hwf : WF s)
    (h : resize g s = some s') : WF s' := by
  rcases hwf with hg | hst
  · exact Or.inl (resize_goodWF hg h)
  · cases hcur : s.current with
    | some a =>
      have hdead : getNode s a = none := hst.2.1 a hcur
      simp [resize, hcur, hdead] at h
    | none =>
      simp only [resize, hcur] at h
      cases hfe : s.first with
      | none =>
        obtain ⟨s'', hev, hwf'', _⟩ := resizeGrow_empty g hfe hst.2.2
        rw [hev] at h
        obtain rfl : s'' = s' := Option.some.inj h
        exact Or.inl hwf''
      | some a0 =>
        exfalso
        simp [resizeGrow, hfe, getFreePool, hst.2.2, hcur, appendNode] at h

/-- Every public operation of the allocator preserves the invariant. -/
theorem step_WF : ∀ (op : Op) {s s' : AllocState}, WF s → step op s = some s' → WF s' := by
  intro op s s' hwf h
  cases op with
  | opAlloc =>
    simp only [step] at h
    cases ha : alloc s with
    | none => rw [ha] at h; simp at h
    | some pr =>
      rw [ha] at h
      obtain ⟨r, s1⟩ := pr
      obtain rfl : s1 = s' := by simpa using h
      exact alloc_WF hwf ha
  | opRelease => exact release_WF hwf h
  | opReset =>
    simp only [step] at h
    obtain rfl : reset s = s' := Option.some.inj h
    exact reset_WF hwf
  | opClear => exact (clear_WF hwf h).1
  | opReserve n => exact Or.inl (reserve_post hwf h).1
  | opResize n => exact resize_WF hwf h

/-! ### Bump-allocation runs -/

theorem setNode_same {s : AllocState} {c : Nat} {n : PoolNode}
    (h : getNode s c = some n) : setNode s c n = s := by
  have hc : s.heap.get? c = some (some n) := by
    revert h
    unfold getNode
    cases hh : s.heap.get? c with
    | none => intro h; simp at h
    | some x =>
      cases x with
      | none => intro h; simp at h
      | some n' =>
        intro h
        obtain rfl : n' = n := Option.some.inj h
        rfl
  have hlt : c < s.heap.length := by
    by_contra hge
    rw [List.get?_eq_getElem?, List.getElem?_eq_none (Nat.le_of_not_lt hge)] at hc
    exact Option.noConfusion hc
  show { s with heap := s.heap.set c (some n) } = s
  have : s.heap.set c (some n) = s.heap := by
    apply List.ext_getElem?
    intro j
    by_cases hj : j = c
    · subst hj
      rw [List.getElem?_set_eq_of_lt _ hlt]
      rw [List.get?_eq_getElem?] at hc
      exact hc.symm
    · exact List.getElem?_set_ne (Ne.symm hj)
  rw [this]

theorem setNode_setNode (s : AllocState) (c : Nat) (n1 n2 : PoolNode) :
    setNode (setNode s c n1) c n2 = setNode s c n2 := by
  simp [setNode, List.set_set]

/-- `k` successive `alloc` calls inside one active node with enough room
hand out that node's consecutive slots and just advance the cursor. -/
theorem allocN_fill : ∀ (k : Nat) (s : AllocState) (c ps ci : Nat) (nx : Option Nat),
    s.current = some c → getNode s c = some { poolsize := ps, currentIdx := ci, next := nx } →
    ci + k ≤ ps →
    allocN k s = some ((List.range k).map (fun i => some ((c, ci + i) : Ptr)),
      setNode s c { poolsize := ps, currentIdx := ci + k, next := nx }) := by
  intro k
  induction k with
  | zero =>
    intro s c ps ci nx hcur hlive hle
    have : setNode s c { poolsize := ps, currentIdx := ci + 0, next := nx } = s := by
      rw [show ci + 0 = ci from rfl]
      exact setNode_same hlive
    rw [this]
    simp [allocN]
  | succ k ih =>
    intro s c ps ci nx hcur hlive hle
    have hne : ({ poolsize := ps, currentIdx := ci, next := nx } : PoolNode).currentIdx
        ≠ ({ poolsize := ps, currentIdx := ci, next := nx } : PoolNode).poolsize := by
      show ci ≠ ps
      omega
    have hstep := alloc_notfull hcur hlive hne
    have hcur1 : (setNode s c { poolsize := ps, currentIdx := ci + 1, next := nx }).current
        = some c := hcur
    have hlive1 : getNode (setNode s c { poolsize := ps, currentIdx := ci + 1, next := nx }) c
        = some { poolsize := ps, currentIdx := ci + 1, next := nx } :=
      getNode_setNode_self hlive _
    have ih1 := ih (setNode s c { poolsize := ps, currentIdx := ci + 1, next := nx })
      c ps (ci + 1) nx hcur1 hlive1 (by omega)
    have hlist : (List.range (k + 1)).map (fun i => some ((c, ci + i) : Ptr))
        = some ((c, ci) : Ptr) :: (List.range k).map (fun i => some ((c, (ci + 1) + i) : Ptr)) := by
      rw [List.range_succ_eq_map]
      simp only [List.map_cons, List.map_map]
      refine congrArg₂ List.cons (by simp) ?_
      refine List.map_congr_left fun i _ => ?_
      have hadd : ci + Nat.succ i = ci + 1 + i := by omega
      simp [Function.comp, hadd]
    simp only [allocN, hstep, ih1]
    rw [hlist, setNode_setNode]
    rw [show ci + (k + 1) = ci + 1 + k from by omega]

/-- Splitting a run of `alloc` calls. -/
theorem allocN_add (a b : Nat) (s : AllocState) :
    allocN (a + b) s =
      match allocN a s with
      | none => none
      | some (ps, s1) =>
        match allocN b s1 with
        | none => none
        | some (qs, s2) => some (ps ++ qs, s2) := by
  induction a generalizing s with
  | zero =>
    rw [Nat.zero_add]
    simp only [allocN]
    cases hb : allocN b s with
    | none => rfl
    | some pr => rfl
  | succ a ih =>
    rw [show a + 1 + b = (a + b) + 1 from by omega]
    cases ha : alloc s with
    | none => simp [allocN, ha]
    | some pr =>
      obtain ⟨p, s1⟩ := pr
      simp only [allocN, ha]
      rw [ih s1]
      cases hA : allocN a s1 with
      | none => simp
      | some pr2 =>
        obtain ⟨ps, s2⟩ := pr2
        cases hB : allocN b s2 with
        | none => simp [hB]
        | some pr3 =>
          obtain ⟨qs, s3⟩ := pr3
          simp [hB]

/-! ### The concrete growth scenario -/

theorem allocN_fill_mkPoolSized (n : Nat) :
    allocN n (mkPoolSized n) = some ((List.range n).map (fun i => some ((0, i) : Ptr)),
      fullState n) := by
  have h := allocN_fill n (mkPoolSized n) 0 n 0 none rfl rfl (by omega)
  rw [h]
  have h1 : setNode (mkPoolSized n) 0 { poolsize := n, currentIdx := 0 + n, next := none }
      = fullState n := by
    simp [setNode, mkPoolSized, fullState]
  rw [h1]
  have h2 : (List.range n).map (fun i => some ((0, 0 + i) : Ptr))
      = (List.range n).map (fun i => some ((0, i) : Ptr)) := by
    refine List.map_congr_left fun i _ => ?_
    simp
  rw [h2]

theorem alloc_fullState (n : Nat) :
    alloc (fullState n) = some (some (1, 0), grownState n) := by
  simp [alloc, fullState, grownState, getNode, resize, resizeGrow, getFreePool,
    appendNode, setNode, Nat.lt_irrefl]

theorem release_grownState (n : Nat) :
    release (grownState n) = some (relState n) := by
  simp [release, grownState, relState, resetCursors, getNode, setNode, zeroCur]

theorem allocN_fill_relState (n : Nat) :
    allocN n (relState n) = some ((List.range n).map (fun i => some ((0, i) : Ptr)),
      relFullState n) := by
  have h := allocN_fill n (relState n) 0 n 0 (some 1) rfl rfl (by omega)
  rw [h]
  have h1 : setNode (relState n) 0 { poolsize := n, currentIdx := 0 + n, next := some 1 }
      = relFullState n := by
    simp [setNode, relState, relFullState]
  rw [h1]
  have h2 : (List.range n).map (fun i => some ((0, 0 + i) : Ptr))
      = (List.range n).map (fun i => some ((0, i) : Ptr)) := by
    refine List.map_congr_left fun i _ => ?_
    simp
  rw [h2]

theorem alloc_relFullState (n : Nat) :
    alloc (relFullState n) = some (some (1, 0), grownState n) := by
  simp [alloc, relFullState, grownState, getNode, resize, resizeGrow, getFreePool,
    setNode, Nat.lt_irrefl]

end TPool

open TPool

/-! ## Claim theorems -/

/-- Claim C1 (counterexample): after `clear()` on a pool built with 4
items the source leaves `m_first` dangling (non-null) and `m_capacity`
at 4, so the pool is not in the all-null, zero-capacity state the claim
asserts. -/
theorem C1_counterexample :
    clear (mkPoolSized 4) = some cleared4 ∧ cleared4.first ≠ none ∧
      capacity cleared4 ≠ 0 := by
  decide

/-- Claim C1 (amended): after `clear()` on any invariant state,
`m_current` and `m_freeList` are null and a subsequent `alloc()` returns
null; however `m_first` keeps its old (now dangling) value and
`capacity()` keeps its pre-clear value instead of returning 0. -/
theorem C1_clear_partial_teardown : ∀ s s', WF s → clear s = some s' →
    s'.current = none ∧ s'.freeList = none ∧ alloc s' = some (none, s') ∧
    s'.first = s.first ∧ s'.capacity = s.capacity := by
  intro s s' hwf h
  obtain ⟨hc, hf, hcap, _, _⟩ := clear_post h
  obtain ⟨_, hfl, _⟩ := clear_WF hwf h
  exact ⟨hc, hfl, alloc_current_none hc, hf, hcap⟩

/-- Claim C1 (witness): the amended statement at the 4-item pool. -/
theorem C1_witness :
    cleared4.current = none ∧ cleared4.freeList = none ∧
    alloc cleared4 = some (none, cleared4) ∧
    cleared4.first = (mkPoolSized 4).first ∧
    cleared4.capacity = (mkPoolSized 4).capacity :=
  C1_clear_partial_teardown (mkPoolSized 4) cleared4
    (Or.inl (goodWF_mkPoolSized 4)) (by decide)

/-- Claim C3: `alloc()` returns null exactly when the pool has no active
chunk; whenever it returns a pointer, that pointer is the slot under the
(possibly new) active chunk's cursor, and the cursor advances past it. -/
theorem C3_alloc_null_iff :
    (∀ s, s.current = none → alloc s = some (none, s)) ∧
    (∀ s r s', alloc s = some (r, s') → (r = none ↔ s.current = none)) ∧
    (∀ s p s', alloc s = some (some p, s') →
      ∃ a n', s'.current = some a ∧ getNode s' a = some n' ∧ p.1 = a ∧
        n'.currentIdx = p.2 + 1) :=
  ⟨fun _ h => alloc_current_none h, fun _ _ _ h => alloc_result_none_iff h,
    fun _ _ _ h => alloc_ptr_slot h⟩

/-- Claim C3 (witness): the empty pool yields null; the 4-item pool
yields the first slot of its chunk. -/
theorem C3_witness :
    alloc mkPool = some (none, mkPool) ∧
    ((none : Option Ptr) = none ↔ mkPool.current = none) ∧
    (∃ a n', (setNode (mkPoolSized 4) 0
        { poolsize := 4, currentIdx := 1, next := none }).current = some a ∧
      getNode (setNode (mkPoolSized 4) 0
        { poolsize := 4, currentIdx := 1, next := none }) a = some n' ∧
      ((0, 0) : Ptr).1 = a ∧ n'.currentIdx = ((0, 0) : Ptr).2 + 1) :=
  ⟨C3_alloc_null_iff.1 mkPool rfl,
   C3_alloc_null_iff.2.1 mkPool none mkPool (C3_alloc_null_iff.1 mkPool rfl),
   C3_alloc_null_iff.2.2 (mkPoolSized 4) (0, 0) _ (by decide)⟩

/-- Claim C8: constructing the pool with `n > 0` items eagerly creates
exactly one chunk of size `n` as both `first` and `current`;
`capacity()` is `n` and `freeMem()` is `n`. -/
theorem C8_sized_ctor : ∀ n, 0 < n →
    capacity (mkPoolSized n) = n ∧ freeMem (mkPoolSized n) = some n ∧
    (mkPoolSized n).first = some 0 ∧ (mkPoolSized n).current = some 0 ∧
    (mkPoolSized n).heap.length = 1 ∧
    chainOf (mkPoolSized n)
      = some [(0, { poolsize := n, currentIdx := 0, next := none })] := by
  intro n _
  refine ⟨rfl, ?_, rfl, rfl, rfl, ?_⟩
  · simp [freeMem, mkPoolSized, getNode]
  · simp [chainOf, chainFrom, mkPoolSized, getNode, chainFrom_none]

/-- Claim C8 (witness): the construction facts at `n = 4`. -/
theorem C8_witness :
    capacity (mkPoolSized 4) = 4 ∧ freeMem (mkPoolSized 4) = some 4 ∧
    (mkPoolSized 4).first = some 0 ∧ (mkPoolSized 4).current = some 0 ∧
    (mkPoolSized 4).heap.length = 1 ∧
    chainOf (mkPoolSized 4)
      = some [(0, { poolsize := 4, currentIdx := 0, next := none })] :=
  C8_sized_ctor 4 (by decide)

/-- Claim C9: a second `clear()` on an already-torn-down pool is a
no-op: it succeeds (faults nothing, frees nothing twice) and leaves the
state unchanged. -/
theorem C9_clear_twice_noop : ∀ s s', clear s = some s' →
    clear s' = some s' ∧ s'.current = none := by
  intro s s' h
  have hc : s'.current = none := (clear_post h).1
  exact ⟨clear_of_current_none hc, hc⟩

/-- Claim C9 (witness): clearing the cleared 4-item pool again changes
nothing. -/
theorem C9_witness : clear cleared4 = some cleared4 ∧ cleared4.current = none :=
  C9_clear_twice_noop (mkPoolSized 4) cleared4 (by decide)

/-- Claim C10: `alloc`, `release`, `clear` and `freeMem` all test
`m_current` for null first and are safe on an empty pool, while
`dumpAllocations` dereferences `m_current` unconditionally: on an empty
or cleared pool it dereferences a null pointer (modelled as `none`), and
it is well-defined only when an active chunk exists. -/
theorem C10_dump_unguarded :
    (∀ s, s.current = none →
      alloc s = some (none, s) ∧ release s = some s ∧ clear s = some s ∧
      freeMem s = some 0 ∧ dumpAllocations s = none) ∧
    (∀ s c n, s.current = some c → getNode s c = some n →
      dumpAllocations s = some (allocCountMsg n.currentIdx)) := by
  constructor
  · intro s h
    refine ⟨alloc_current_none h, ?_, clear_of_current_none h, ?_, ?_⟩
    · simp [release, h]
    · simp [freeMem, h]
    · simp [dumpAllocations, h]
  · intro s c n hc hn
    simp [dumpAllocations, hc, hn]

/-- Claim C10 (witness): on the empty pool every guarded operation
no-ops while `dumpAllocations` faults; on the 4-item pool
`dumpAllocations` reports 0 allocations. -/
theorem C10_witness :
    (alloc mkPool = some (none, mkPool) ∧ release mkPool = some mkPool ∧
      clear mkPool = some mkPool ∧ freeMem mkPool = some 0 ∧
      dumpAllocations mkPool = none) ∧
    dumpAllocations (mkPoolSized 4) = some (allocCountMsg 0) :=
  ⟨C10_dump_unguarded.1 mkPool rfl,
   C10_dump_unguarded.2 (mkPoolSized 4) 0
     { poolsize := 4, currentIdx := 0, next := none } rfl rfl⟩

/-- Claim C4: on a pool of initial size `n > 0` the first `n` `alloc`
calls return the `n` distinct non-null slots of the first chunk, and the
`(n+1)`-th call triggers growth: it returns a fresh non-null slot of a
new chunk rather than null or a live slot, doubling `capacity()` to
`2 * n` (so 8 for `n = 4`). -/
theorem C4_first_allocs_distinct : ∀ n, 0 < n →
    allocN (n + 1) (mkPoolSized n)
      = some ((List.range n).map (fun i => some ((0, i) : Ptr)) ++ [some (1, 0)],
          grownState n) ∧
    ((List.range n).map (fun i => some ((0, i) : Ptr)) ++ [some ((1, 0) : Ptr)]).Nodup ∧
    (none : Option Ptr) ∉
      (List.range n).map (fun i => some ((0, i) : Ptr)) ++ [some ((1, 0) : Ptr)] ∧
    capacity (grownState n) = 2 * n ∧ (grownState n).heap.length = 2 := by
  intro n hn
  refine ⟨?_, ?_, ?_, ?_, rfl⟩
  · rw [allocN_add n 1, allocN_fill_mkPoolSized n]
    have h1 : allocN 1 (fullState n) = some ([some (1, 0)], grownState n) := by
      simp [allocN, alloc_fullState]
    simp [h1]
  · rw [List.nodup_append]
    refine ⟨?_, List.nodup_singleton _, ?_⟩
    · refine List.Nodup.map ?_ (List.nodup_range n)
      intro a b h
      simpa using h
    · intro x hx hy
      rw [List.mem_singleton] at hy
      subst hy
      obtain ⟨i, _, hi⟩ := List.mem_map.1 hx
      simp at hi
  · intro hmem
    rcases List.mem_append.1 hmem with hm | hm
    · obtain ⟨i, _, hi⟩ := List.mem_map.1 hm
      exact Option.noConfusion hi
    · rw [List.mem_singleton] at hm
      exact Option.noConfusion hm
  · show n + n = 2 * n
    omega

/-- Claim C4 (witness): the growth scenario at `n = 4`, with
`capacity() = 8` after the fifth call. -/
theorem C4_witness :
    allocN 5 (mkPoolSized 4)
      = some ((List.range 4).map (fun i => some ((0, i) : Ptr)) ++ [some (1, 0)],
          grownState 4) ∧
    ((List.range 4).map (fun i => some ((0, i) : Ptr)) ++ [some ((1, 0) : Ptr)]).Nodup ∧
    (none : Option Ptr) ∉
      (List.range 4).map (fun i => some ((0, i) : Ptr)) ++ [some ((1, 0) : Ptr)] ∧
    capacity (grownState 4) = 2 * 4 ∧ (grownState 4).heap.length = 2 :=
  C4_first_allocs_distinct 4 (by decide)

/-- Claim C6: the round trip — construct with size `n`, allocate `n + 1`
objects (forcing growth), `release()`, allocate `n + 1` objects again —
takes the reuse path on the second growth: the pool returns to exactly
the same two-chunk state, `capacity()` stays at its post-first-growth
value `n + n`, and no new chunk is created (the heap still holds exactly
two nodes). -/
theorem C6_roundtrip_reuse : ∀ n, 0 < n →
    allocN (n + 1) (mkPoolSized n)
      = some ((List.range n).map (fun i => some ((0, i) : Ptr)) ++ [some (1, 0)],
          grownState n) ∧
    release (grownState n) = some (relState n) ∧
    allocN (n + 1) (relState n)
      = some ((List.range n).map (fun i => some ((0, i) : Ptr)) ++ [some (1, 0)],
          grownState n) ∧
    capacity (grownState n) = n + n ∧ (grownState n).heap.length = 2 := by
  intro n hn
  refine ⟨?_, release_grownState n, ?_, rfl, rfl⟩
  · rw [allocN_add n 1, allocN_fill_mkPoolSized n]
    have h1 : allocN 1 (fullState n) = some ([some (1, 0)], grownState n) := by
      simp [allocN, alloc_fullState]
    simp [h1]
  · rw [allocN_add n 1, allocN_fill_relState n]
    have h1 : allocN 1 (relFullState n) = some ([some (1, 0)], grownState n) := by
      simp [allocN, alloc_relFullState]
    simp [h1]

/-- Claim C6 (witness): the round trip at `n = 4`. -/
theorem C6_witness :
    allocN 5 (mkPoolSized 4)
      = some ((List.range 4).map (fun i => some ((0, i) : Ptr)) ++ [some (1, 0)],
          grownState 4) ∧
    release (grownState 4) = some (relState 4) ∧
    allocN 5 (relState 4)
      = some ((List.range 4).map (fun i => some ((0, i) : Ptr)) ++ [some (1, 0)],
          grownState 4) ∧
    capacity (grownState 4) = 4 + 4 ∧ (grownState 4).heap.length = 2 :=
  C6_roundtrip_reuse 4 (by decide)

/-- Claim C2: growth policy.  (i) The empty and sized constructors
establish the invariant and every public operation preserves it — in
particular the chunk sizes along the primary chain are always monotone
non-decreasing (part of `goodWF`).  (ii) When the active chunk is full,
growth triggered by `alloc` first takes the retired chunk at the head of
the free list and reuses it — no new chunk is created, `capacity()` is
unchanged, and the reused chunk is of sufficient size (at least the full
chunk's size, a consequence of the size-sorted chain).  (iii) Only when
the free list is empty is a brand-new chunk created, sized exactly (hence
at least) as large as the currently-full chunk, with `capacity()` growing
by that size. -/
theorem C2_growth_policy :
    (WF mkPool ∧ ∀ n, WF (mkPoolSized n)) ∧
    (∀ op s s', WF s → step op s = some s' → WF s') ∧
    (∀ s c cn, goodWF s → s.current = some c → getNode s c = some cn →
      cn.currentIdx = cn.poolsize →
      (∀ f, s.freeList = some f →
        ∃ fn r s', getNode s f = some fn ∧ cn.poolsize ≤ fn.poolsize ∧
          alloc s = some (some r, s') ∧ s'.current = some f ∧
          s'.heap.length = s.heap.length ∧ s'.capacity = s.capacity ∧ goodWF s') ∧
      (s.freeList = none →
        ∃ r s', alloc s = some (some r, s') ∧ s'.current = some s.heap.length ∧
          getNode s' s.heap.length
            = some { poolsize := cn.poolsize, currentIdx := 1, next := none } ∧
          s'.heap.length = s.heap.length + 1 ∧ s'.capacity = s.capacity + cn.poolsize ∧
          goodWF s')) :=
  ⟨⟨Or.inl goodWF_mkPool, fun n => Or.inl (goodWF_mkPoolSized n)⟩,
   fun op _ _ hwf h => step_WF op hwf h,
   fun _ _ _ hwf hcur hclive hfull => alloc_full_spec hwf hcur hclive hfull⟩

/-- Claim C2 (witness): on a released two-chunk pool of size 4 whose
head is full again, growth reuses the retired chunk: same heap, same
capacity, active chunk becomes the free-list head, which is large
enough. -/
theorem C2_witness :
    ∃ fn r s', getNode witReuseState 1 = some fn ∧
      ({ poolsize := 4, currentIdx := 4, next := some 1 } : PoolNode).poolsize ≤ fn.poolsize ∧
      alloc witReuseState = some (some r, s') ∧ s'.current = some 1 ∧
      s'.heap.length = witReuseState.heap.length ∧
      s'.capacity = witReuseState.capacity ∧ goodWF s' :=
  (C2_growth_policy.2.2 witReuseState 0 { poolsize := 4, currentIdx := 4, next := some 1 }
    ⟨[(0, { poolsize := 4, currentIdx := 4, next := some 1 }),
      (1, { poolsize := 4, currentIdx := 0, next := none })], by decide, by decide, by decide,
      Or.inr ⟨0, { poolsize := 4, currentIdx := 4, next := some 1 }, [],
        [(1, { poolsize := 4, currentIdx := 0, next := none })], rfl, rfl,
        Or.inr ⟨1, { poolsize := 4, currentIdx := 0, next := none }, [], [], rfl, rfl⟩⟩⟩
    rfl rfl rfl).1 1 rfl

/-- Claim C5: `release()` on a non-empty well-formed pool rewinds every
chunk's cursor to 0, keeps every buffer (same heap, same capacity),
makes the head chunk current again with everything after it on the free
list; afterwards `freeMem()` equals the head chunk's full size, exactly
that many further `alloc` calls hand out the head chunk's consecutive
slots, and the next call triggers growth away from the head. -/
theorem C5_release_soft_reset : ∀ s c, goodWF s → s.current = some c →
    ∃ f0 n0 rest s', chainOf s = some ((f0, n0) :: rest) ∧
      release s = some s' ∧
      (∀ e ∈ (f0, n0) :: rest, getNode s' e.1 = some (zeroCur e.2)) ∧
      s'.heap.length = s.heap.length ∧ s'.capacity = s.capacity ∧
      s'.first = s.first ∧ s'.current = some f0 ∧ s'.freeList = n0.next ∧
      freeMem s' = some n0.poolsize ∧
      ∃ ptrs s'', allocN n0.poolsize s' = some (ptrs, s'') ∧
        ptrs = (List.range n0.poolsize).map (fun i => some ((f0, i) : Ptr)) ∧
        s''.heap.length = s.heap.length ∧ s''.capacity = s.capacity ∧
        s''.current = some f0 ∧
        ∃ r s3, alloc s'' = some (some r, s3) ∧ s3.current ≠ some f0 := by
  intro s c hwf hcur
  obtain ⟨f0, n0, rest, s', hchain, hfirst, hrel, hwf', hlen, hcap, hfe, hcu, hfl,
    hzero, hoff, hchain'⟩ := release_spec hwf hcur
  have hg0 : getNode s' f0
      = some { poolsize := n0.poolsize, currentIdx := 0, next := n0.next } :=
    hzero (f0, n0) (List.mem_cons_self _ _)
  refine ⟨f0, n0, rest, s', hchain, hrel, hzero, hlen, hcap, hfe, hcu, hfl, ?_, ?_⟩
  · simp [freeMem, hcu, hg0]
  · have hfill := allocN_fill n0.poolsize s' f0 n0.poolsize 0 n0.next hcu hg0 (by omega)
    refine ⟨_, _, hfill, ?_, ?_, ?_, ?_, ?_⟩
    · refine List.map_congr_left fun i _ => by simp
    · rw [heapLength_setNode]
      exact hlen
    · show s'.capacity = s.capacity
      exact hcap
    · show s'.current = some f0
      exact hcu
    · -- the (size+1)-th call grows away from the head
      have hwf'' : goodWF (setNode s' f0 { poolsize := n0.poolsize, currentIdx := 0 + n0.poolsize, next := n0.next }) :=
        goodWF_setNode_cursor { poolsize := n0.poolsize, currentIdx := 0, next := n0.next } (0 + n0.poolsize) hwf' hg0
      have hcur'' : (setNode s' f0 { poolsize := n0.poolsize, currentIdx := 0 + n0.poolsize, next := n0.next }).current = some f0 := hcu
      have hlive'' := getNode_setNode_self hg0 { poolsize := n0.poolsize, currentIdx := 0 + n0.poolsize, next := n0.next }
      have hfull'' : ({ poolsize := n0.poolsize, currentIdx := 0 + n0.poolsize, next := n0.next } : PoolNode).currentIdx = ({ poolsize := n0.poolsize, currentIdx := 0 + n0.poolsize, next := n0.next } : PoolNode).poolsize := by
        show 0 + n0.poolsize = n0.poolsize
        omega
      have hspec := alloc_full_spec hwf'' hcur'' hlive'' hfull''
      cases hflv : (setNode s' f0 { poolsize := n0.poolsize, currentIdx := 0 + n0.poolsize, next := n0.next }).freeList with
      | some f =>
        obtain ⟨fn, r, s3, _, _, halloc, hcur3, _, _, _⟩ := hspec.1 f hflv
        refine ⟨r, s3, halloc, ?_⟩
        rw [hcur3]
        intro heq
        obtain rfl : f = f0 := Option.some.inj heq
        -- a self-loop would duplicate the head on the chain
        obtain ⟨l, l1, cnx, l2, hch2, hnd2, _, hdec2, hflc2⟩ := goodWF_some hwf'' hcur''
        subst hdec2
        rcases hflc2 with hnone | ⟨f', fn', l2a, l2b, hfl2, hdec3⟩
        · rw [hnone] at hflv
          exact Option.noConfusion hflv
        · obtain rfl : f = f' := Option.some.inj (hflv.symm.trans hfl2)
          subst hdec3
          rw [chainAddrs_append, chainAddrs_cons, List.nodup_append] at hnd2
          have hnotin := (List.nodup_cons.1 hnd2.2.1).1
          apply hnotin
          rw [chainAddrs_append, chainAddrs_cons]
          simp
      | none =>
        obtain ⟨r, s3, halloc, hcur3, _, _, _, _⟩ := hspec.2 hflv
        refine ⟨r, s3, halloc, ?_⟩
        rw [hcur3]
        intro heq
        have hlt : f0 < (setNode s' f0 { poolsize := n0.poolsize, currentIdx := 0 + n0.poolsize, next := n0.next }).heap.length :=
          getNode_lt hlive''
        obtain heq2 := Option.some.inj heq
        omega

/-- Claim C5 (witness): on the concrete two-chunk pool of size 4 after the
fifth allocation, `release` rewinds both cursors, keeps heap and capacity,
reactivates the head with the retired chunk on the free list, `freeMem`
is the full head size 4, the next 4 allocations hand out the head slots,
and the following one moves the cursor off the head. -/
theorem C5_witness :
    ∃ f0 n0 rest s', chainOf (grownState 4) = some ((f0, n0) :: rest) ∧
      release (grownState 4) = some s' ∧
      (∀ e ∈ (f0, n0) :: rest, getNode s' e.1 = some (zeroCur e.2)) ∧
      s'.heap.length = (grownState 4).heap.length ∧
      s'.capacity = (grownState 4).capacity ∧
      s'.first = (grownState 4).first ∧ s'.current = some f0 ∧
      s'.freeList = n0.next ∧ freeMem s' = some n0.poolsize ∧
      ∃ ptrs s'', allocN n0.poolsize s' = some (ptrs, s'') ∧
        ptrs = (List.range n0.poolsize).map (fun i => some ((f0, i) : Ptr)) ∧
        s''.heap.length = (grownState 4).heap.length ∧
        s''.capacity = (grownState 4).capacity ∧
        s''.current = some f0 ∧
        ∃ r s3, alloc s'' = some (some r, s3) ∧ s3.current ≠ some f0 :=
  C5_release_soft_reset (grownState 4) 1
    ⟨[(0, { poolsize := 4, currentIdx := 4, next := some 1 }),
      (1, { poolsize := 4, currentIdx := 1, next := none })], rfl, by decide, by decide,
      Or.inr ⟨1, { poolsize := 4, currentIdx := 1, next := none },
        [(0, { poolsize := 4, currentIdx := 4, next := some 1 })], [], rfl, rfl,
        Or.inl rfl⟩⟩
    rfl

/-- Claim C7 (counterexample): `reserve` does not succeed from every prior
state.  The state reached by the public sequence `clear(); reset()` on a
one-chunk pool has `m_current = m_first` pointing at freed memory; the
`clear()` inside `reserve(5)` then walks a dangling pointer (undefined
behaviour, modelled as `none`), so no post-state with capacity 5 exists. -/
theorem C7_counterexample :
    clear (mkPoolSized 4) = some cleared4 ∧
    step Op.opReset cleared4 = some (reset cleared4) ∧
    reserve 5 (reset cleared4) = none := by
  decide

/-- Claim C7 (amended): from any well-formed pool state, or any stuck state
whose `m_current` is already null (e.g. right after a teardown), `reserve m`
succeeds: it tears down the old chain (every old chain node is freed),
leaves a single fresh chunk of size `m` as both `m_first` and `m_current`,
and makes `capacity()` exactly `m`.  The original claim's "from any prior
pool state" is refuted by the counterexample: after `clear(); reset()` the
pool is stuck with a dangling `m_current` and `reserve` is undefined
behaviour. -/
theorem C7_reserve_exact : ∀ m s, goodWF s ∨ (stuck s ∧ s.current = none) →
    ∃ s', reserve m s = some s' ∧ capacity s' = m ∧ goodWF s' ∧
      s'.freeList = none ∧ s'.first = some s.heap.length ∧
      s'.current = some s.heap.length ∧
      getNode s' s.heap.length = some { poolsize := m, currentIdx := 0, next := none } ∧
      chainOf s' = some [(s.heap.length, { poolsize := m, currentIdx := 0, next := none })] ∧
      (∀ l, chainOf s = some l → ∀ a ∈ chainAddrs l, getNode s' a = none) := by
  intro m s hpre
  have hwf : WF s := by
    rcases hpre with hg | ⟨hst, _⟩
    exacts [Or.inl hg, Or.inr hst]
  obtain ⟨s1, hcl⟩ : ∃ s1, clear s = some s1 := by
    cases hcur : s.current with
    | none => exact ⟨s, clear_of_current_none hcur⟩
    | some c =>
      rcases hpre with hg | ⟨_, hnone⟩
      · obtain ⟨l, hchain, hnd, _, _⟩ := hg
        obtain ⟨s0, hdel, _⟩ := deleteChain_spec hchain hnd
        exact ⟨{ s0 with current := none, freeList := none },
          by simp only [clear, hcur, hdel]⟩
      · rw [hnone] at hcur
        exact Option.noConfusion hcur
  obtain ⟨s', hres⟩ : ∃ s', reserve m s = some s' :=
    ⟨{ appendNode s1 { poolsize := m, currentIdx := 0, next := none } with
        first := some s1.heap.length, current := some s1.heap.length, capacity := m },
      by simp only [reserve, hcl]⟩
  obtain ⟨hg', hcap, hfl, hfi, hcu, _, hget, hchain', hold⟩ := reserve_post hwf hres
  exact ⟨s', hres, hcap, hg', hfl, hfi, hcu, hget, hchain', hold⟩

/-- Claim C7 (witness): `reserve 7` on a freshly constructed pool of size 3
yields a single fresh chunk of size 7 and capacity exactly 7. -/
theorem C7_witness :
    ∃ s', reserve 7 (mkPoolSized 3) = some s' ∧ capacity s' = 7 ∧ goodWF s' ∧
      s'.freeList = none ∧ s'.first = some (mkPoolSized 3).heap.length ∧
      s'.current = some (mkPoolSized 3).heap.length ∧
      getNode s' (mkPoolSized 3).heap.length
        = some { poolsize := 7, currentIdx := 0, next := none } ∧
      chainOf s'
        = some [((mkPoolSized 3).heap.length,
                 { poolsize := 7, currentIdx := 0, next := none })] ∧
      (∀ l, chainOf (mkPoolSized 3) = some l →
        ∀ a ∈ chainAddrs l, getNode s' a = none) :=
  C7_reserve_exact 7 (mkPoolSized 3) (Or.inl (goodWF_mkPoolSized 3))
